import Mathlib

/-!
Verification of the helmify value-extraction core: a shallow embedding of
`src/pkg/processor/configmap/configmap.go` and
`src/pkg/processor/statefulset/statefulset.go`, together with models of the
collaborators those files call (the path-addressed values tree of
`pkg/helmify`, the `unstructured.SetNestedField` helper of k8s apimachinery,
the `strcase` camel-case normalizer, and the out-of-scope YAML serializer),
and proofs about the extraction, rewriting and error-handling behaviour.

Go strings are modelled as Lean `String`s; the handful of Go `strings.*`
helpers used by the sources (`Split` on a one-character separator,
`TrimSuffix`, `LastIndex`, `ReplaceAll` removing a character, `HasSuffix`)
are re-implemented below over the character list of the string so that all
definitions compute by kernel reduction.
-/

namespace Helmify

/-- The single-quote character, written via its code point. -/
def sqChar : Char := Char.ofNat 39

/-- Split a character list at every occurrence of `c`.
Models Go `strings.Split` for a one-character separator: always returns at
least one (possibly empty) piece. -/
def chSplit (c : Char) : List Char → List (List Char)
  | [] => [[]]
  | x :: xs =>
    let r := chSplit c xs
    if x = c then [] :: r
    else
      match r with
      | [] => [[x]]
      | h :: t => (x :: h) :: t

/-- Go `strings.Split(s, sep)` for a one-character separator `sep`. -/
def strSplit (c : Char) (s : String) : List String :=
  (chSplit c s.data).map fun l => String.mk l

/-- Go `strings.HasSuffix` / `String.endsWith`, via character lists. -/
def strEndsWith (s suf : String) : Bool :=
  decide (suf.data.reverse = s.data.reverse.take suf.data.length)

/-- Go `strings.TrimSuffix`: removes one trailing occurrence of `suf`. -/
def trimSuffixOnce (s suf : String) : String :=
  if strEndsWith s suf then String.mk (s.data.take (s.data.length - suf.data.length)) else s

/-- The index of the last occurrence of `c` in a character list, if any. -/
def lastIdxOfAux (c : Char) : List Char → Option Nat
  | [] => none
  | x :: xs =>
    match lastIdxOfAux c xs with
    | some j => some (j + 1)
    | none => if x = c then some 0 else none

/-- Go `strings.LastIndex(s, c)` for a one-character needle: the index of the
last occurrence, or `none` where Go returns `-1`. -/
def lastIdxOf (c : Char) (s : String) : Option Nat :=
  lastIdxOfAux c s.data

/-- Go `strings.ReplaceAll(s, string(c), "")`: deletes every occurrence of a
character. Used by the sources to strip the single quotes that YAML
serialization puts around placeholder strings. -/
def removeChar (c : Char) (s : String) : String :=
  String.mk (s.data.filter fun x => x ≠ c)

/-- Join a list of strings with separator `sep` (Go `strings.Join`). -/
def strJoin (sep : String) : List String → String
  | [] => ""
  | [x] => x
  | x :: xs => x ++ sep ++ strJoin sep xs

/-- Repeated-space indentation helper used by the serializer models. -/
def indentStr (n : Nat) : String :=
  String.mk (List.replicate n ' ')

/-- Modelled from the external `iancoleman/strcase` library (a dependency,
not repository code): `strcase.ToLowerCamel`. Delimiters (`_`, `-`, space,
`.`) are removed and the following letter is upper-cased; the very first
letter is lower-cased; all other characters are kept as they are. -/
def toLowerCamelChars : List Char → Bool → Bool → List Char
  | [], _, _ => []
  | x :: xs, first, capNext =>
    if x = '_' ∨ x = '-' ∨ x = ' ' ∨ x = '.' then
      toLowerCamelChars xs first true
    else if first then
      x.toLower :: toLowerCamelChars xs false false
    else if capNext then
      x.toUpper :: toLowerCamelChars xs false false
    else
      x :: toLowerCamelChars xs false false

/-- `strcase.ToLowerCamel` on strings. -/
def toLowerCamel (s : String) : String :=
  String.mk (toLowerCamelChars s.data true false)

/-! ### The values tree

`helmify.Values` is `map[string]interface{}` in Go. It is modelled as an
association list from keys to nodes; iteration order of a Go map is the list
order, and the claims about order independence quantify over permutations of
that order. -/

/-- A Go scalar as it appears in decoded YAML/JSON payloads and in the values
tree: string, bool or integer. (`float64` leaves are handled by the source
exactly like the other scalar cases and are subsumed by this type.) -/
inductive GoVal where
  | str (s : String)
  | boolean (b : Bool)
  | int (n : Int)
deriving DecidableEq

/-- A node of the values tree: a scalar leaf, a nested mapping, or an opaque
sequence (sequences are never traversed for extraction). -/
inductive VNode where
  | scalar (v : GoVal)
  | map (kvs : List (String × VNode))
  | arr (xs : List VNode)

/-- `helmify.Values`: a path-addressed nested mapping. -/
abbrev Values := List (String × VNode)

/-- Lookup of a key in one mapping level (Go map indexing). -/
def getVal (t : Values) (k : String) : Option VNode :=
  match t with
  | [] => none
  | (k2, v) :: rest => if k2 = k then some v else getVal rest k

/-- Update of a key in one mapping level (Go map assignment): replaces the
first binding of `k` in place, or appends a new binding. -/
def setVal (t : Values) (k : String) (v : VNode) : Values :=
  match t with
  | [] => [(k, v)]
  | (k2, w) :: rest => if k2 = k then (k, v) :: rest else (k2, w) :: setVal rest k v

/-- The node reached from `t` by following a (non-empty) path of keys through
nested mappings. -/
def getNode (t : Values) : List String → Option VNode
  | [] => none
  | [k] => getVal t k
  | k :: rest =>
    match getVal t k with
    | some (.map sub) => getNode sub rest
    | _ => none

/-- The scalar stored at a path, if any: rendering the placeholder expression
for a path against a values tree yields exactly this value. -/
def lookupLeaf (t : Values) (q : List String) : Option GoVal :=
  match getNode t q with
  | some (.scalar v) => some v
  | _ => none

/-- Modelled from the external k8s apimachinery library (a dependency, not
repository code): `unstructured.SetNestedField` specialised to the scalar
payloads the sources store. Creates intermediate mapping levels, fails if an
intermediate level already holds a non-mapping, and overwrites the terminal
key unconditionally. -/
def setNestedField (t : Values) (v : GoVal) : List String → Except String Values
  | [] => .error "no fields"
  | [k] => .ok (setVal t k (.scalar v))
  | k :: rest =>
    match getVal t k with
    | some (.map sub) =>
      match setNestedField sub v rest with
      | .error e => .error e
      | .ok sub2 => .ok (setVal t k (.map sub2))
    | some _ => .error ("value cannot be set because " ++ k ++ " is not a map")
    | none =>
      match setNestedField [] v rest with
      | .error e => .error e
      | .ok sub2 => .ok (setVal t k (.map sub2))

/-- Whether `setNestedField` can descend along `p` in `t`: no strict proper
level of the path already holds a non-mapping node. -/
def pathClear (t : Values) : List String → Prop
  | [] => False
  | [_] => True
  | k :: rest =>
    match getVal t k with
    | some (.map sub) => pathClear sub rest
    | some _ => False
    | none => True

/-- The placeholder expression for a values-tree path (the wire format
`{{ .Values.<dot-joined path> }}` of the spec). -/
def refOf (path : List String) : String :=
  "\x7b\x7b .Values." ++ strJoin "." path ++ " \x7d\x7d"

/-- Modelled from the spec: `Values.Add` of `pkg/helmify` (not under src/).
Creates intermediate mapping levels for every path segment except the last,
fails if an intermediate segment already holds a scalar, sets the terminal
segment to the value, and returns the placeholder expression derived from the
path. The call sites in src/ pass already-normalized segments, so the §3
normalization is the identity here. -/
def Values.add (t : Values) (v : GoVal) (path : List String) : Except String (Values × String) :=
  match setNestedField t v path with
  | .error e => .error e
  | .ok t2 => .ok (t2, refOf path)

mutual

/-- Modelled from the spec: one step of `Values.Merge` of `pkg/helmify` (not
under src/), unifying two nodes bound to the same key. Equal scalars unify,
mappings recurse, and any other combination is a conflict. -/
def mergeNode (a b : VNode) : Except String VNode :=
  match a, b with
  | .scalar x, .scalar y => if x = y then .ok (.scalar x) else .error "scalar values conflict"
  | .map l1, .map l2 =>
    match mergeValues l1 l2 with
    | .error e => .error e
    | .ok m => .ok (.map m)
  | _, _ => .error "shape conflict"

/-- Modelled from the spec: `Values.Merge` of `pkg/helmify` (not under src/).
Recursively unifies two trees key by key; fails (naming the conflicting key)
when the same path holds different scalars or a mapping on one side and a
scalar on the other. -/
def mergeValues (t : Values) : Values → Except String Values
  | [] => .ok t
  | (k, v) :: rest =>
    match getVal t k with
    | none => mergeValues (setVal t k v) rest
    | some w =>
      match mergeNode w v with
      | .error e => .error (e ++ " at key " ++ k)
      | .ok u => mergeValues (setVal t k u) rest

end

/-- Sequence-freeness of a node: the values trees built by the processors
contain only scalars and mappings. -/
inductive ArrFree : VNode → Prop
  | scalar (v : GoVal) : ArrFree (.scalar v)
  | map {kvs : List (String × VNode)} (h : ∀ kv ∈ kvs, ArrFree kv.2) : ArrFree (.map kvs)

/-- Sequence-freeness of a whole tree. -/
def ArrFreeT (t : Values) : Prop := ∀ kv ∈ t, ArrFree kv.2

/-! ### The ConfigMap processor (src/pkg/processor/configmap/configmap.go) -/

/-- Decoded structured content as produced by `yaml.Unmarshal` into
`map[string]interface{}`: scalars, `nil` (handled by the source's `default`
branch), sequences, and nested string-keyed mappings. (The source's
`map[interface{}]interface{}` case cannot arise from `sigs.k8s.io/yaml`,
which round-trips through JSON, and is not modelled.) -/
inductive GoJson where
  | scalar (v : GoVal)
  | null
  | arr (xs : List GoJson)
  | obj (kvs : List (String × GoJson))

mutual

/-- The body of `parseConfig`'s `for k, v := range config` loop for a single
entry: the type switch of configmap.go lines 142-168. Returns the possibly
rewritten entry value, the updated values tree, and the diagnostics recorded
(the `logrus` calls, per the spec's diagnostics design note). -/
def parseEntry (k : String) (v : GoJson) (values : Values) (path : List String) :
    GoJson × Values × List String :=
  match v with
  | .scalar s =>
    if k = "kind" ∨ k = "apiVersion" then (v, values, [])
    else
      match Values.add values s (path ++ [k]) with
      | .ok (values2, templated) => (.scalar (.str templated), values2, [])
      | .error e => (v, values, [e])
  | .arr _ => (v, values, ["configmap: arrays not supported"])
  | .obj sub =>
    let r := parseConfig sub values (path ++ [k])
    (.obj r.1, r.2.1, r.2.2)
  | .null => (v, values, ["configmap: unknown type"])

/-- `parseConfig` (configmap.go lines 141-170): recursive descent over decoded
structured content, replacing scalar leaves (except `kind`/`apiVersion`) by
the placeholder returned by the values-tree insertion. The association-list
order is the Go map iteration order of this run. -/
def parseConfig (config : List (String × GoJson)) (values : Values) (path : List String) :
    List (String × GoJson) × Values × List String :=
  match config with
  | [] => ([], values, [])
  | (k, v) :: rest =>
    let r1 := parseEntry k v values path
    let r2 := parseConfig rest r1.2.1 path
    ((k, r1.1) :: r2.1, r2.2.1, r1.2.2 ++ r2.2.2)

end

/-- The loop of `parseProperties` (configmap.go lines 122-137) over the split
lines. Returns the rewritten text (or the first fatal parse error) together
with the values tree as mutated so far — on error the additions made for
earlier lines are kept, exactly as the Go map mutation keeps them. -/
def parsePropLines (lines : List String) (path : List String) (values : Values) :
    Except String String × Values :=
  match lines with
  | [] => (.ok "", values)
  | line :: rest =>
    let prop := strSplit '=' line
    if prop.length = 2 then
      let propName := prop.headD ""
      let propVal := (prop.drop 1).headD ""
      let propNamePath := strSplit '.' propName
      match Values.add values (.str propVal) (path ++ propNamePath) with
      | .error e => (.error e, values)
      | .ok (values2, templatedVal) =>
        match parsePropLines rest path values2 with
        | (.ok restStr, values3) => (.ok (propName ++ "=" ++ templatedVal ++ "\n" ++ restStr), values3)
        | (.error e, values3) => (.error e, values3)
    else
      (.error ("wrong property format in [" ++ strJoin " " path ++ "]: " ++ line), values)

/-- `parseProperties` (configmap.go lines 120-139): the line-oriented property
extractor. One trailing newline is normalized away, the text is split into
lines, and every line must split into exactly two parts at `=`. -/
def parseProperties (properties : String) (path : List String) (values : Values) :
    Except String String × Values :=
  parsePropLines (strSplit '\n' (trimSuffixOnce properties "\n")) path values

/-- The YAML codec used by `parseYaml`: `yaml.Unmarshal`/`yaml.Marshal` of
`sigs.k8s.io/yaml` (an external dependency). Theorems about the other data
routes hold for every codec; concrete instances supply a trivial one. -/
structure YamlCodec where
  unmarshal : String → Except String (List (String × GoJson))
  marshal : List (String × GoJson) → String

/-- `parseYaml` (configmap.go lines 106-118): unmarshal, structural
extraction, re-marshal. The values tree is untouched when unmarshalling
fails; the mutations of `parseConfig` are kept otherwise. -/
def parseYaml (codec : YamlCodec) (value : String) (path : List String) (values : Values) :
    Except String String × Values × List String :=
  match codec.unmarshal value with
  | .error e =>
    (.error ("unable to unmarshal configmap [" ++ strJoin " " path ++ "]: " ++ e), values, [])
  | .ok config =>
    let r := parseConfig config values path
    (.ok (codec.marshal r.1), r.2.1, r.2.2)

/-- The diagnostic recorded by `parseMapData` when one data entry fails
(`logrus.WithError(err).Errorf("unable to process configmap data: %v", ...)`). -/
def dataDiag (path : List String) (e : String) : String :=
  "unable to process configmap data: [" ++ strJoin " " path ++ "]: " ++ e

/-- The `for key, value := range data` loop of `parseMapData` (configmap.go
lines 76-102), threading the shared values tree through the entries. -/
def parseMapDataGo (codec : YamlCodec) (data : List (String × String)) (configName : String)
    (values : Values) : List (String × String) × Values × List String :=
  match data with
  | [] => ([], values, [])
  | (key, value) :: rest =>
    let valuesNamePath := [configName, key]
    if strEndsWith key ".yaml" ∨ strEndsWith key ".yml" then
      match parseYaml codec value valuesNamePath values with
      | (.error e, values2, d) =>
        let r := parseMapDataGo codec rest configName values2
        ((key, value) :: r.1, r.2.1, (d ++ [dataDiag valuesNamePath e]) ++ r.2.2)
      | (.ok templated, values2, d) =>
        let r := parseMapDataGo codec rest configName values2
        ((key, templated) :: r.1, r.2.1, d ++ r.2.2)
    else if strEndsWith key ".properties" then
      match parseProperties value valuesNamePath values with
      | (.error e, values2) =>
        let r := parseMapDataGo codec rest configName values2
        ((key, value) :: r.1, r.2.1, dataDiag valuesNamePath e :: r.2.2)
      | (.ok templated, values2) =>
        let r := parseMapDataGo codec rest configName values2
        ((key, templated) :: r.1, r.2.1, r.2.2)
    else
      match Values.add values (.str value) valuesNamePath with
      | .error e =>
        let r := parseMapDataGo codec rest configName values
        ((key, value) :: r.1, r.2.1, dataDiag valuesNamePath e :: r.2.2)
      | .ok (values2, templatedVal) =>
        let r := parseMapDataGo codec rest configName values2
        ((key, templatedVal) :: r.1, r.2.1, r.2.2)

/-- `parseMapData` (configmap.go lines 74-104): classifies every entry of the
primary data mapping by name suffix, threads one shared values tree through
all entries, and degrades a failing entry to untemplated passthrough with a
diagnostic instead of aborting. -/
def parseMapData (codec : YamlCodec) (data : List (String × String)) (configName : String) :
    List (String × String) × Values × List String :=
  parseMapDataGo codec data configName []

/-- A decoded ConfigMap resource document: the fields of the unstructured
object that `configMap.Process` reads through the `unstructured.Nested*`
accessors. -/
structure ConfigMapObj where
  group : String
  version : String
  kind : String
  name : String
  immutable : Option Bool
  binaryData : Option (List (String × String))
  data : Option (List (String × String))

/-- Modelled from the spec: the out-of-scope YAML serializer
(`pkg/yaml.Marshal` of this repository, not under src/) applied to a
string-to-string mapping wrapped under one label, with the given indentation.
Values are single-quoted, which the source strips again for the data section. -/
def marshalStrMap (label : String) (kvs : List (String × String)) (indent : Nat) : String :=
  indentStr indent ++ label ++ ":" ++
    strJoin "" (kvs.map fun kv =>
      "\n" ++ indentStr (indent + 2) ++ kv.1 ++ ": " ++
        String.singleton sqChar ++ kv.2 ++ String.singleton sqChar)

/-- Modelled from the spec: the serializer applied to a single boolean field. -/
def marshalBoolField (label : String) (b : Bool) (indent : Nat) : String :=
  indentStr indent ++ label ++ ": " ++ (if b then "true" else "false")

/-- Modelled from the spec: `processor.ProcessMetadata` (repository code not
under src/, an out-of-scope collaborator): yields the trimmed resource name
and the metadata header of the template document. -/
def processMetadataCM (obj : ConfigMapObj) : String × String :=
  (obj.name,
    "apiVersion: v1\nkind: ConfigMap\nmetadata:\n  name: " ++ obj.name ++ "\n")

/-- The outcome of offering a resource to a processor: Go's
`(bool, helmify.Template, error)` triple. `notMatched` is `(false, nil, nil)`,
`failed e` is `(true, nil, err)` — an accepted kind whose processing was
rejected with no template committed — and `ok r` is `(true, tpl, nil)`. -/
inductive ProcResult (α : Type) where
  | notMatched
  | failed (e : String)
  | ok (r : α)

/-- The template produced for one accepted ConfigMap: the file name, the
template text (`result.data`), the values fragment, and the recorded
diagnostics. -/
structure CMResult where
  filename : String
  templateData : String
  values : Values
  diags : List String

/-- `configMap.Process` (configmap.go lines 32-72): kind gate, metadata,
literal passthrough of `immutable` and `binaryData`, extraction over the
`data` mapping, and single-quote stripping of the serialized data section. -/
def processConfigMap (codec : YamlCodec) (obj : ConfigMapObj) : ProcResult CMResult :=
  if ¬(obj.group = "" ∧ obj.version = "v1" ∧ obj.kind = "ConfigMap") then .notMatched
  else
    let meta := processMetadataCM obj
    let name := meta.1
    let template0 := meta.2
    let template1 :=
      match obj.immutable with
      | none => template0
      | some b => template0 ++ marshalBoolField "immutable" b 0 ++ "\n"
    let template2 :=
      match obj.binaryData with
      | none => template1
      | some kvs => template1 ++ marshalStrMap "binaryData" kvs 0 ++ "\n"
    match obj.data with
    | none =>
      .ok { filename := name ++ ".yaml", templateData := template2, values := [], diags := [] }
    | some data =>
      let r := parseMapData codec data name
      let dataStr := removeChar sqChar (marshalStrMap "data" r.1 0)
      .ok { filename := name ++ ".yaml", templateData := template2 ++ dataStr,
            values := r.2.1, diags := r.2.2 }

/-! ### The StatefulSet processor (src/pkg/processor/statefulset/statefulset.go) -/

/-- `helmify.AppMetadata` (repository code not under src/): the chart-level
naming collaborator. Modelled from the spec as the three operations the
StatefulSet processor uses: trimming a resource name, rewriting a dependency
reference to the chart's generated name, and the chart name. -/
structure AppMetadata where
  trimName : String → String
  templatedName : String → String
  chartName : String

/-- A container environment entry (`corev1.EnvVar`), with the two reference
kinds the processor rewrites. -/
structure EnvVar where
  name : String
  value : String
  secretKeyRefName : Option String
  configMapKeyRefName : Option String

/-- A `corev1.EnvFromSource` entry. -/
structure EnvFromSrc where
  secretRefName : Option String
  configMapRefName : Option String

/-- A `corev1.Container` restricted to the fields the processor reads or
writes; resource quantities appear through `Quantity.ToUnstructured` as
scalars. -/
structure Container where
  name : String
  image : String
  env : List EnvVar
  envFrom : List EnvFromSrc
  requests : List (String × GoVal)
  limits : List (String × GoVal)

/-- A pod volume with the three reference kinds the processor rewrites. -/
structure PodVolume where
  name : String
  configMapName : Option String
  secretName : Option String
  pvcClaimName : Option String

/-- A `corev1.PodSpec` restricted to the fields the processor touches. -/
structure PodSpec where
  containers : List Container
  volumes : List PodVolume
  serviceAccountName : String
  imagePullSecrets : List String

/-- The selector of the StatefulSet spec; match expressions are re-emitted
opaquely and modelled as an opaque blob. -/
structure LabelSelector where
  matchLabels : List (String × String)
  matchExpressions : Option String

/-- The StatefulSet spec fields the processor reads. Volume-claim templates
are only marshalled wholesale, so each is an opaque blob. -/
structure StatefulSetSpec where
  replicas : Option Int
  selector : LabelSelector
  templateLabels : List (String × String)
  templateAnnotations : List (String × String)
  podSpec : PodSpec
  volumeClaimTemplates : List String

/-- A decoded StatefulSet resource document. -/
structure StatefulSetObj where
  group : String
  version : String
  kind : String
  name : String
  spec : StatefulSetSpec

/-- Modelled from the spec: the chart-wide cluster-domain environment entry
appended to every container (`cluster.DomainEnv` / `cluster.DomainKey` of
this repository, not under src/). -/
def domainKey : String := "kubernetesClusterDomain"

/-- The environment entry appended to every container (statefulset.go lines
289-292). -/
def domainEnvVar : EnvVar :=
  { name := "KUBERNETES_CLUSTER_DOMAIN",
    value := "\x7b\x7b .Values." ++ domainKey ++ " \x7d\x7d",
    secretKeyRefName := none, configMapKeyRefName := none }

/-- The rewritten image reference of statefulset.go line 263:
`{{ .Values.<name>.<container>.image.repository }}:{{ .Values.<name>.<container>.image.tag | default .Chart.AppVersion }}`. -/
def imageRef (name containerName : String) : String :=
  "\x7b\x7b .Values." ++ name ++ "." ++ containerName ++ ".image.repository \x7d\x7d:" ++
    "\x7b\x7b .Values." ++ name ++ "." ++ containerName ++
      ".image.tag | default .Chart.AppVersion \x7d\x7d"

/-- Env reference rewriting (statefulset.go lines 273-280). -/
def rewriteEnvVar (appMeta : AppMetadata) (e : EnvVar) : EnvVar :=
  { e with
    secretKeyRefName := e.secretKeyRefName.map appMeta.templatedName
    configMapKeyRefName := e.configMapKeyRefName.map appMeta.templatedName }

/-- EnvFrom reference rewriting (statefulset.go lines 281-288). -/
def rewriteEnvFrom (appMeta : AppMetadata) (e : EnvFromSrc) : EnvFromSrc :=
  { secretRefName := e.secretRefName.map appMeta.templatedName
    configMapRefName := e.configMapRefName.map appMeta.templatedName }

/-- The `c.Resources.Requests` / `c.Resources.Limits` loops (statefulset.go
lines 293-304): each quantity is set at
`[name, containerName, "resources", block, key]`. -/
def setResList (values : Values) (name containerName block : String) :
    List (String × GoVal) → Except String Values
  | [] => .ok values
  | (k, v) :: rest =>
    match setNestedField values v [name, containerName, "resources", block, k] with
    | .error e => .error ("unable to set container resources value: " ++ e)
    | .ok values2 => setResList values2 name containerName block rest

/-- `processPodContainer` (statefulset.go lines 256-306): split the image at
its last `:` (fatal error when absent), rewrite the image field, store
repository and tag, rewrite env references, append the cluster-domain env
entry, and store the resource quantities. -/
def processPodContainer (name : String) (appMeta : AppMetadata) (c : Container)
    (values : Values) : Except String (Container × Values) :=
  match lastIdxOf ':' c.image with
  | none => .error ("wrong image format: " ++ c.image)
  | some index =>
    let repo := String.mk (c.image.data.take index)
    let tag := String.mk (c.image.data.drop (index + 1))
    let containerName := toLowerCamel c.name
    let image2 := imageRef name containerName
    match setNestedField values (.str repo) [name, containerName, "image", "repository"] with
    | .error e => .error ("unable to set statefulset value field: " ++ e)
    | .ok values1 =>
      match setNestedField values1 (.str tag) [name, containerName, "image", "tag"] with
      | .error e => .error ("unable to set statefulset value field: " ++ e)
      | .ok values2 =>
        let env2 := (c.env.map (rewriteEnvVar appMeta)) ++ [domainEnvVar]
        let envFrom2 := c.envFrom.map (rewriteEnvFrom appMeta)
        match setResList values2 name containerName "requests" c.requests with
        | .error e => .error e
        | .ok values3 =>
          match setResList values3 name containerName "limits" c.limits with
          | .error e => .error e
          | .ok values4 =>
            .ok ({ c with image := image2, env := env2, envFrom := envFrom2 }, values4)

/-- The `for i, c := range pod.Containers` loop of `processPodSpec`
(statefulset.go lines 232-238), threading one shared values tree. -/
def processContainers (name : String) (appMeta : AppMetadata) (cs : List Container)
    (values : Values) : Except String (List Container × Values) :=
  match cs with
  | [] => .ok ([], values)
  | c :: rest =>
    match processPodContainer name appMeta c values with
    | .error e => .error e
    | .ok (c2, values2) =>
      match processContainers name appMeta rest values2 with
      | .error e => .error e
      | .ok (rest2, values3) => .ok (c2 :: rest2, values3)

/-- Volume reference rewriting (statefulset.go lines 239-246). -/
def rewriteVolume (appMeta : AppMetadata) (v : PodVolume) : PodVolume :=
  { v with
    configMapName := v.configMapName.map appMeta.templatedName
    secretName := v.secretName.map appMeta.templatedName }

/-- `processPodSpec` (statefulset.go lines 230-254): processes every
container into a fresh values tree, then performs the structural reference
rewrites on volumes, the service-account name and the image-pull secrets. -/
def processPodSpec (name : String) (appMeta : AppMetadata) (pod : PodSpec) :
    Except String (PodSpec × Values) :=
  match processContainers name appMeta pod.containers [] with
  | .error e => .error e
  | .ok (cs, values) =>
    .ok ({ pod with
            containers := cs
            volumes := pod.volumes.map (rewriteVolume appMeta)
            serviceAccountName := appMeta.templatedName pod.serviceAccountName
            imagePullSecrets := pod.imagePullSecrets.map appMeta.templatedName },
         values)

/-- Modelled from the spec: the serializer applied to a single string field
under one label with the given indentation, single-quoting the value. -/
def marshalStrField (label v : String) (indent : Nat) : String :=
  indentStr indent ++ label ++ ": " ++ String.singleton sqChar ++ v ++ String.singleton sqChar

/-- `processReplicas` (statefulset.go lines 214-228): absence of an explicit
replica count means no templating; otherwise the count is added to the
values tree and the serialized field (with its quotes stripped) is returned. -/
def processReplicas (name : String) (replicas : Option Int) (values : Values) :
    Except String (String × Values) :=
  match replicas with
  | none => .ok ("", values)
  | some n =>
    match Values.add values (.int n) [name, "replicas"] with
    | .error e => .error e
    | .ok (values2, replicasTpl) =>
      .ok (removeChar sqChar (marshalStrField "replicas" replicasTpl 2), values2)

/-- Modelled from the spec: the serializer applied to a bare string-to-string
mapping (labels) with the given indentation. -/
def marshalKVs (kvs : List (String × String)) (indent : Nat) : String :=
  strJoin "\n" (kvs.map fun kv => indentStr indent ++ kv.1 ++ ": " ++ kv.2)

/-- Go `strings.Trim(s, " \n")`: both ends. -/
def trimCut (s : String) : String :=
  String.mk
    (((s.data.dropWhile fun c => c = ' ' ∨ c = '\n').reverse.dropWhile
      fun c => c = ' ' ∨ c = '\n').reverse)

/-- Modelled from the spec: `yamlformat.Indent` (repository code not under
src/), prefixing every line with `n` spaces. -/
def indentBlock (n : Nat) (s : String) : String :=
  strJoin "\n" ((strSplit '\n' s).map fun l => indentStr n ++ l)

/-- `unstructured.NestedMap` (external k8s apimachinery): descends through
mapping levels; `none` when a key is absent, an error when a traversed value
is not a mapping. -/
def nestedMapGet (t : Values) : List String → Except String (Option Values)
  | [] => .ok (some t)
  | k :: rest =>
    match getVal t k with
    | none => .ok none
    | some (.map sub) => nestedMapGet sub rest
    | some _ => .error (k ++ " is not a map")

/-- The wholesale resource-block placeholder of statefulset.go line 151. -/
def resBlockRef (nameCamel containerName : String) : String :=
  "\x7b\x7b- toYaml .Values." ++ nameCamel ++ "." ++ containerName ++
    ".resources | nindent 10 \x7d\x7d"

/-- The `for i := range containers` loop of statefulset.go lines 142-155:
for each container whose extracted `resources` subtree is non-empty, the
whole resource block is replaced by a single placeholder. -/
def resBlocks (values : Values) (nameCamel : String) :
    List Container → Except String (List (Container × Option String))
  | [] => .ok []
  | c :: rest =>
    let containerName := toLowerCamel c.name
    match nestedMapGet values [nameCamel, containerName, "resources"] with
    | .error e => .error e
    | .ok res =>
      let blk : Option String :=
        match res with
        | none => none
        | some m => if m.isEmpty then none else some (resBlockRef nameCamel containerName)
      match resBlocks values nameCamel rest with
      | .error e => .error e
      | .ok rest2 => .ok ((c, blk) :: rest2)

/-- Modelled from the spec: the serializer applied to one rewritten container
(with its optional wholesale resource-block replacement) inside the pod spec
section. Claims never depend on this formatting, only on the strings carried
into it. -/
def marshalContainerT (pair : Container × Option String) : String :=
  "      - name: " ++ pair.1.name ++
    "\n        image: " ++ String.singleton sqChar ++ pair.1.image ++ String.singleton sqChar ++
    strJoin "" (pair.1.env.map fun e =>
      "\n        env " ++ e.name ++ "=" ++
        String.singleton sqChar ++ e.value ++ String.singleton sqChar) ++
    (match pair.2 with
     | some blk =>
       "\n        resources: " ++ String.singleton sqChar ++ blk ++ String.singleton sqChar
     | none => "")

/-- Modelled from the spec: the serializer applied to the whole rewritten pod
spec section (statefulset.go line 162). -/
def marshalPodSpecT (pod : PodSpec) (pairs : List (Container × Option String)) : String :=
  "      containers:\n" ++ strJoin "\n" (pairs.map marshalContainerT) ++
    "\n      serviceAccountName: " ++ pod.serviceAccountName ++
    strJoin "" (pod.volumes.map fun v => "\n      volume " ++ v.name)

/-- Modelled from the spec: the serializer applied to the wholesale
volume-claim-templates list (statefulset.go line 172). -/
def marshalVCTs (vcts : List String) (indent : Nat) : String :=
  indentStr indent ++ "VolumeClaimTemplates:" ++
    strJoin "" (vcts.map fun b => "\n" ++ indentStr (indent + 2) ++ "- " ++ b)

/-- Modelled from the spec: `processor.ProcessObjMeta` (repository code not
under src/): the immutable metadata header of the template document. -/
def processObjMeta (appMeta : AppMetadata) (obj : StatefulSetObj) : String :=
  "apiVersion: apps/v1\nkind: StatefulSet\nmetadata:\n  name: " ++
    appMeta.trimName obj.name

/-- The fields of the `text/template` data struct of statefulset.go. -/
structure STData where
  meta : String
  replicas : String
  selector : String
  podLabels : String
  podAnnotations : String
  spec : String
  vct : String

/-- The template produced for one accepted StatefulSet. -/
structure SResult where
  data : STData
  values : Values

/-- The instantiation of `statefulsetTempl` (statefulset.go lines 29-46)
performed by `result.Write`, with Go template whitespace-trimming semantics:
the `Replicas` and `VolumeClaimTemplates` sections appear only when their
strings are non-empty. -/
def renderStatefulSet (d : STData) : String :=
  d.meta ++ "\nspec:" ++
    (if d.replicas = "" then "" else "\n" ++ d.replicas) ++
    "\n  selector:\n" ++ d.selector ++
    "\n  template:\n    metadata:\n      labels:\n" ++ d.podLabels ++
    d.podAnnotations ++
    "\n    spec:\n" ++ d.spec ++
    (if d.vct = "" then "" else "\n" ++ d.vct)

/-- `statefulset.Process` (statefulset.go lines 60-212): kind gate, metadata,
replica extraction, selector and label re-emission, pod-spec processing into
a fresh fragment merged into the resource fragment, PVC reference renaming,
wholesale resource-block replacement, and the conditional wholesale
volume-claim-templates section. -/
def stsProcess (appMeta : AppMetadata) (obj : StatefulSetObj) : ProcResult SResult :=
  if ¬(obj.group = "apps" ∧ obj.version = "v1" ∧ obj.kind = "StatefulSet") then .notMatched
  else
    let meta := processObjMeta appMeta obj
    let name := appMeta.trimName obj.name
    match processReplicas name obj.spec.replicas [] with
    | .error e => .failed e
    | .ok (replicas, values) =>
      let matchLabels := marshalStrMap "matchLabels" obj.spec.selector.matchLabels 0
      let matchExpr :=
        match obj.spec.selector.matchExpressions with
        | none => ""
        | some s => marshalStrField "matchExpressions" s 0
      let selector := indentBlock 4 (trimCut
        (matchLabels ++ "\n\x7b\x7b- include \"" ++ appMeta.chartName ++
          ".selectorLabels\" . | nindent 6 \x7d\x7d\n" ++ matchExpr))
      let podLabels := marshalKVs obj.spec.templateLabels 8 ++
        "\n      \x7b\x7b- include \"" ++ appMeta.chartName ++
          ".selectorLabels\" . | nindent 8 \x7d\x7d"
      let podAnnotations :=
        if obj.spec.templateAnnotations.isEmpty then ""
        else "\n" ++ marshalStrMap "annotations" obj.spec.templateAnnotations 6
      let nameCamel := toLowerCamel name
      match processPodSpec nameCamel appMeta obj.spec.podSpec with
      | .error e => .failed e
      | .ok (pod1, podValues) =>
        match mergeValues values podValues with
        | .error e => .failed e
        | .ok values2 =>
          let pod2 := { pod1 with volumes := pod1.volumes.map fun v =>
            { v with pvcClaimName := v.pvcClaimName.map appMeta.templatedName } }
          match resBlocks values2 nameCamel pod1.containers with
          | .error e => .failed e
          | .ok pairs =>
            let spec := removeChar sqChar (marshalPodSpecT pod2 pairs)
            let vct :=
              if obj.spec.volumeClaimTemplates.isEmpty then ""
              else "\n" ++ marshalVCTs obj.spec.volumeClaimTemplates 2
            .ok { data := { meta := meta, replicas := replicas, selector := selector,
                            podLabels := podLabels, podAnnotations := podAnnotations,
                            spec := spec, vct := vct },
                  values := values2 }

/-! ### Specification-side definitions used by the theorems -/

/-- `isPre p q`: the path `p` is a (not necessarily strict) leading segment
of the path `q`. -/
def isPre : List String → List String → Prop
  | [], _ => True
  | _ :: _, [] => False
  | a :: as, b :: bs => a = b ∧ isPre as bs

/-- Strip the leading segment `p` from `q`, if `p` leads `q`. -/
def stripPre : List String → List String → Option (List String)
  | [], q => some q
  | _ :: _, [] => none
  | a :: as, b :: bs => if a = b then stripPre as bs else none

/-- First association of a path in a path/value list. -/
def findP (l : List (List String × GoVal)) (q : List String) : Option GoVal :=
  match l with
  | [] => none
  | (p, v) :: rest => if p = q then some v else findP rest q

/-- The overlay of a relative path/value list rooted at `p` over the reads of
a base tree: what the spec says a run of the structural extractor leaves
readable at each path. -/
def overlayLeaf (L : List (List String × GoVal)) (p : List String) (t : Values)
    (q : List String) : Option GoVal :=
  match stripPre p q with
  | some rel =>
    match findP L rel with
    | some w => some w
    | none => lookupLeaf t q
  | none => lookupLeaf t q

mutual

/-- The relative paths and values of the scalar leaves that the structural
extractor is specified to collect from one entry: `kind`/`apiVersion`
scalars, sequences and unrecognized shapes contribute nothing; nested
mappings contribute their leaves below the entry key. -/
def leafPathsEntry (k : String) (v : GoJson) : List (List String × GoVal) :=
  match v with
  | .scalar s => if k = "kind" ∨ k = "apiVersion" then [] else [([k], s)]
  | .null => []
  | .arr _ => []
  | .obj sub => (leafPaths sub).map fun pv => (k :: pv.1, pv.2)

/-- The relative paths and values of all scalar leaves of a payload. -/
def leafPaths : List (String × GoJson) → List (List String × GoVal)
  | [] => []
  | (k, v) :: rest => leafPathsEntry k v ++ leafPaths rest

end

mutual

/-- Well-formedness of decoded structured content: at every mapping level
the keys are distinct, as they are in a Go map. -/
def wfJson : GoJson → Prop
  | .obj kvs => wfObj kvs
  | _ => True

/-- Well-formedness of one mapping level and everything below it. -/
def wfObj : List (String × GoJson) → Prop
  | [] => True
  | (k, v) :: rest => (∀ kv ∈ rest, kv.1 ≠ k) ∧ wfJson v ∧ wfObj rest

end

mutual

/-- Two decoded payloads that differ only in the iteration order of mapping
keys, at any level: scalars, `nil` and sequences must coincide, mappings
must bind the same keys to reorder-equivalent values. -/
inductive JsonEquiv : GoJson → GoJson → Prop
  | scalar (v : GoVal) : JsonEquiv (.scalar v) (.scalar v)
  | null : JsonEquiv .null .null
  | arr (xs : List GoJson) : JsonEquiv (.arr xs) (.arr xs)
  | obj {l1 l2 : List (String × GoJson)} (h : ObjEquiv l1 l2) :
      JsonEquiv (.obj l1) (.obj l2)

/-- Reorder equivalence of mapping levels: the first binding of the left
list appears somewhere in the right list with an equivalent value, and the
rests are equivalent. -/
inductive ObjEquiv : List (String × GoJson) → List (String × GoJson) → Prop
  | nil : ObjEquiv [] []
  | cons {k : String} {v v2 : GoJson} {l1 l2a l2b : List (String × GoJson)}
      (hv : JsonEquiv v v2) (hl : ObjEquiv l1 (l2a ++ l2b)) :
      ObjEquiv ((k, v) :: l1) (l2a ++ (k, v2) :: l2b)

end

/-! ### Concrete fixtures used by witnesses and counterexamples -/

/-- The identity chart-naming collaborator used by concrete instances. -/
def idMeta : AppMetadata where
  trimName := fun s => s
  templatedName := fun s => s
  chartName := "chart"

/-- The container of the source tree's test fixture (statefulset_test.go):
image `redis` without a tag. -/
def redisContainer : Container where
  name := "redis"
  image := "redis"
  env := []
  envFrom := []
  requests := []
  limits := [("memory", GoVal.str "2Gi")]

/-- A variant of the fixture container with a tagged image `redis:6.2`. -/
def redisTaggedContainer : Container where
  name := "redis"
  image := "redis:6.2"
  env := []
  envFrom := []
  requests := []
  limits := []

/-- A container named `redis` with image `repo-one:1.0`; its lower-camel
normalized name collides with that of [collideContainerB]. -/
def collideContainerA : Container where
  name := "redis"
  image := "repo-one:1.0"
  env := []
  envFrom := []
  requests := []
  limits := []

/-- A container named `Redis` (distinct original name) whose lower-camel
normalized name is also `redis`, with image `repo-two:2.0`. -/
def collideContainerB : Container where
  name := "Redis"
  image := "repo-two:2.0"
  env := []
  envFrom := []
  requests := []
  limits := []

/-- A container `web` with image `nginx:1.2`. -/
def webContainer : Container where
  name := "web"
  image := "nginx:1.2"
  env := []
  envFrom := []
  requests := []
  limits := []

/-- A StatefulSet fixture with one volume-claim template and no explicit
replica count. -/
def vctStatefulSet : StatefulSetObj where
  group := "apps"
  version := "v1"
  kind := "StatefulSet"
  name := "web"
  spec := {
    replicas := none
    selector := { matchLabels := [("app", "web")], matchExpressions := none }
    templateLabels := [("app", "web")]
    templateAnnotations := []
    podSpec := {
      containers := [webContainer]
      volumes := []
      serviceAccountName := ""
      imagePullSecrets := [] }
    volumeClaimTemplates := ["data-claim"] }

/-- The test fixture StatefulSet of statefulset_test.go. -/
def redisStatefulSet : StatefulSetObj where
  group := "apps"
  version := "v1"
  kind := "StatefulSet"
  name := "redis"
  spec := {
    replicas := some 3
    selector := { matchLabels := [("app", "redis")], matchExpressions := none }
    templateLabels := [("app", "redis")]
    templateAnnotations := []
    podSpec := {
      containers := [redisContainer]
      volumes := []
      serviceAccountName := ""
      imagePullSecrets := [] }
    volumeClaimTemplates := ["redis-data"] }

/-- A YAML codec usable for concrete instances in which the embedded-YAML
route plays no role. -/
def trivCodec : YamlCodec where
  unmarshal := fun _ => .error "unsupported"
  marshal := fun _ => ""

/-- A ConfigMap fixture whose only data entry is a `.properties` text with a
well-formed first line and a malformed second line. -/
def badPropsConfigMap : ConfigMapObj where
  group := ""
  version := "v1"
  kind := "ConfigMap"
  name := "cfg"
  immutable := none
  binaryData := none
  data := some [("app.properties", "timeout=30\nbadline")]

/-- A two-level structured payload, in one iteration order. -/
def c3cfgA : List (String × GoJson) :=
  [("a", .scalar (.str "1")),
   ("b", .obj [("c", .scalar (.str "2")), ("d", .scalar (.str "3"))])]

/-- The same payload as `c3cfgA` with both mapping levels iterated in a
different order. -/
def c3cfgB : List (String × GoJson) :=
  [("b", .obj [("d", .scalar (.str "3")), ("c", .scalar (.str "2"))]),
   ("a", .scalar (.str "1"))]

/-- The path shape of an extracted container image leaf:
`[name, container, "image", repository|tag]`. -/
def imgShape (q : List String) : Prop := q.length = 4 ∧ q.get? 2 = some "image"

/-- The path shape of an extracted container resource-quantity leaf:
`[name, container, "resources", requests|limits, key]`. -/
def resShape (q : List String) : Prop := q.length = 5 ∧ q.get? 2 = some "resources"

/-- The invariant of the values trees built by `processContainers`: free of
sequences, and every scalar leaf sits at an image or resource path. -/
def ContainerVals (t : Values) : Prop :=
  ArrFreeT t ∧ ∀ q v, lookupLeaf t q = some v → imgShape q ∨ resShape q

/-- Rendering the rewritten image field of a container against a values
tree: the repository placeholder and the tag placeholder joined by `:` (the
tag is present, so its `default .Chart.AppVersion` clause does not fire). -/
def renderImage (t : Values) (name containerName : String) : Option String :=
  match lookupLeaf t [name, containerName, "image", "repository"],
        lookupLeaf t [name, containerName, "image", "tag"] with
  | some (.str r), some (.str g) => some (r ++ ":" ++ g)
  | _, _ => none

/-! ## Core lemmas about the values tree -/

/-- Decidability of `isPre`. -/
def decIsPre : (p q : List String) → Decidable (isPre p q)
  | [], _ => isTrue trivial
  | _ :: _, [] => isFalse id
  | a :: as, b :: bs =>
    match String.decEq a b with
    | isTrue h =>
      match decIsPre as bs with
      | isTrue h2 => isTrue ⟨h, h2⟩
      | isFalse h2 => isFalse fun hh => h2 hh.2
    | isFalse h => isFalse fun hh => h hh.1

instance (p q : List String) : Decidable (isPre p q) := decIsPre p q

theorem getVal_setVal (t : Values) (k : String) (v : VNode) (q : String) :
    getVal (setVal t k v) q = if k = q then some v else getVal t q := by
  induction t with
  | nil => by_cases h : k = q <;> simp [setVal, getVal, h]
  | cons kv rest ih =>
    obtain ⟨kk, w⟩ := kv
    by_cases h1 : kk = k
    · subst h1
      by_cases h2 : kk = q <;> simp [setVal, getVal, h2]
    · by_cases h2 : kk = q
      · subst h2
        have hkq : ¬ k = kk := fun hh => h1 hh.symm
        simp [setVal, getVal, h1, hkq]
      · simp [setVal, getVal, h1, h2, ih]

theorem isPre_refl (p : List String) : isPre p p := by
  induction p with
  | nil => trivial
  | cons a as ih => exact ⟨rfl, ih⟩

theorem isPre_nil_right {p : List String} (h : isPre p []) : p = [] := by
  cases p with
  | nil => rfl
  | cons a as => exact absurd h id

theorem lookupLeaf_nil (q : List String) : lookupLeaf [] q = none := by
  cases q with
  | nil => rfl
  | cons a as => cases as <;> simp [lookupLeaf, getNode, getVal]

theorem getNode_cons (t : Values) (k : String) (qrest : List String) (h : qrest ≠ []) :
    getNode t (k :: qrest) =
      match getVal t k with
      | some (.map sub) => getNode sub qrest
      | _ => none := by
  cases qrest with
  | nil => exact absurd rfl h
  | cons b bs => rfl

theorem lookupLeaf_cons (t : Values) (k : String) (b : String) (bs : List String) :
    lookupLeaf t (k :: b :: bs) =
      match getVal t k with
      | some (.map sub) => lookupLeaf sub (b :: bs)
      | _ => none := by
  rw [lookupLeaf, getNode_cons t k (b :: bs) (by simp)]
  cases hv : getVal t k with
  | none => simp
  | some node => cases node <;> simp [lookupLeaf]

theorem setNested_ok_prefix_none {t : Values} {v : GoVal} {p : List String} {t2 : Values}
    (h : setNestedField t v p = .ok t2) {q : List String}
    (hq : isPre q p) (hne : q ≠ p) : lookupLeaf t q = none := by
  induction p generalizing t t2 q with
  | nil => simp [setNestedField] at h
  | cons k prest ih =>
    cases q with
    | nil => simp [lookupLeaf, getNode]
    | cons a as =>
      obtain ⟨hak, has⟩ := hq
      subst hak
      cases prest with
      | nil =>
        have : as = [] := isPre_nil_right has
        subst this
        exact absurd rfl hne
      | cons p1 prest2 =>
        simp only [setNestedField] at h
        cases hv : getVal t a with
        | none =>
          cases as with
          | nil => simp [lookupLeaf, getNode, hv]
          | cons b bs => simp [lookupLeaf_cons, hv]
        | some node =>
          cases node with
          | scalar s => simp [hv] at h
          | arr xs => simp [hv] at h
          | map sub =>
            simp only [hv] at h
            cases hrec : setNestedField sub v (p1 :: prest2) with
            | error e => simp [hrec] at h
            | ok sub2 =>
              cases as with
              | nil => simp [lookupLeaf, getNode, hv]
              | cons b bs =>
                have hne2 : (b :: bs) ≠ (p1 :: prest2) := fun hh => hne (by rw [hh])
                have := ih hrec has hne2
                simpa [lookupLeaf_cons, hv] using this

theorem setNested_lookupLeaf {t : Values} {v : GoVal} {p : List String} {t2 : Values}
    (h : setNestedField t v p = .ok t2) (q : List String) :
    lookupLeaf t2 q =
      if q = p then some v
      else if isPre p q ∨ isPre q p then none
      else lookupLeaf t q := by
  induction p generalizing t t2 q with
  | nil => simp [setNestedField] at h
  | cons k prest ih =>
    cases prest with
    | nil =>
      simp only [setNestedField] at h
      cases h
      cases q with
      | nil => simp [lookupLeaf, getNode, isPre]
      | cons a as =>
        cases as with
        | nil =>
          by_cases hak : a = k
          · subst hak
            simp [lookupLeaf, getNode, getVal_setVal, isPre]
          · have hka : ¬ k = a := fun hh => hak hh.symm
            simp [lookupLeaf, getNode, getVal_setVal, hka, hak, isPre]
        | cons b bs =>
          by_cases hak : a = k
          · subst hak
            have hpre : isPre [a] (a :: b :: bs) := ⟨rfl, trivial⟩
            simp [lookupLeaf_cons, getVal_setVal, hpre, isPre]
          · have hka : ¬ k = a := fun hh => hak hh.symm
            simp [lookupLeaf_cons, getVal_setVal, hka, hak, isPre]
    | cons p1 prest2 =>
      simp only [setNestedField] at h
      have main : ∀ sub sub2 : Values, getVal t k = some (.map sub) ∨
          (getVal t k = none ∧ sub = []) →
          setNestedField sub v (p1 :: prest2) = .ok sub2 →
          t2 = setVal t k (.map sub2) →
          ∀ q, lookupLeaf t2 q =
            if q = k :: p1 :: prest2 then some v
            else if isPre (k :: p1 :: prest2) q ∨ isPre q (k :: p1 :: prest2) then none
            else lookupLeaf t q := by
        intro sub sub2 hsub hrec ht2 q
        subst ht2
        cases q with
        | nil => simp [lookupLeaf, getNode, isPre]
        | cons a as =>
          by_cases hak : a = k
          · subst hak
            cases as with
            | nil =>
              have hpre : isPre [a] (a :: p1 :: prest2) := ⟨rfl, trivial⟩
              rcases hsub with hv | ⟨hv, -⟩ <;>
                simp [lookupLeaf, getNode, getVal_setVal, hpre, isPre]
            | cons b bs =>
              have hL : lookupLeaf (setVal t a (.map sub2)) (a :: b :: bs) =
                  lookupLeaf sub2 (b :: bs) := by
                simp [lookupLeaf_cons, getVal_setVal]
              have hR : lookupLeaf t (a :: b :: bs) = lookupLeaf sub (b :: bs) := by
                rcases hsub with hv | ⟨hv, hs⟩
                · simp [lookupLeaf_cons, hv]
                · subst hs
                  simp [lookupLeaf_cons, hv, lookupLeaf_nil]
              rw [hL, ih hrec (b :: bs), hR]
              by_cases h1 : (b :: bs) = (p1 :: prest2)
              · simp [h1]
              · have h2 : (a :: b :: bs) ≠ (a :: p1 :: prest2) := by simp [h1]
                by_cases h3 : isPre (p1 :: prest2) (b :: bs) ∨ isPre (b :: bs) (p1 :: prest2)
                · have h4 : isPre (a :: p1 :: prest2) (a :: b :: bs) ∨
                      isPre (a :: b :: bs) (a :: p1 :: prest2) := by
                    rcases h3 with h3 | h3
                    · exact Or.inl ⟨rfl, h3⟩
                    · exact Or.inr ⟨rfl, h3⟩
                  simp [h1, h2, h3, h4]
                · have h4 : ¬ (isPre (a :: p1 :: prest2) (a :: b :: bs) ∨
                      isPre (a :: b :: bs) (a :: p1 :: prest2)) := by
                    rintro (⟨-, hh⟩ | ⟨-, hh⟩)
                    · exact h3 (Or.inl hh)
                    · exact h3 (Or.inr hh)
                  simp [h1, h2, h3, h4]
          · have hka : ¬ k = a := fun hh => hak hh.symm
            have h2 : (a :: as) ≠ (k :: p1 :: prest2) := by simp [hak]
            have h4 : ¬ (isPre (k :: p1 :: prest2) (a :: as) ∨
                isPre (a :: as) (k :: p1 :: prest2)) := by
              rintro (⟨hh, -⟩ | ⟨hh, -⟩)
              · exact hka hh
              · exact hak hh
            cases as with
            | nil => simp [lookupLeaf, getNode, getVal_setVal, hka, h2, h4]
            | cons b bs => simp [lookupLeaf_cons, getVal_setVal, hka, h2, h4]
      cases hv : getVal t k with
      | none =>
        simp only [hv] at h
        cases hrec : setNestedField ([] : Values) v (p1 :: prest2) with
        | error e => simp [hrec] at h
        | ok sub2 =>
          simp only [hrec] at h
          cases h
          exact main [] sub2 (Or.inr ⟨hv, rfl⟩) hrec rfl q
      | some node =>
        cases node with
        | scalar s => simp [hv] at h
        | arr xs => simp [hv] at h
        | map sub =>
          simp only [hv] at h
          cases hrec : setNestedField sub v (p1 :: prest2) with
          | error e => simp [hrec] at h
          | ok sub2 =>
            simp only [hrec] at h
            cases h
            exact main sub sub2 (Or.inl hv) hrec rfl q

theorem getNode_nil (q : List String) : getNode [] q = none := by
  cases q with
  | nil => rfl
  | cons a as => cases as <;> simp [getNode, getVal]

theorem setNested_ok (v : GoVal) : ∀ (p : List String) (t : Values), p ≠ [] →
    (∀ q, isPre q p → q ≠ p → q ≠ [] →
      getNode t q = none ∨ ∃ sub, getNode t q = some (.map sub)) →
    ∃ t2, setNestedField t v p = .ok t2 := by
  intro p
  induction p with
  | nil => intro t hp _; exact absurd rfl hp
  | cons k prest ih =>
    intro t _ hpre
    cases prest with
    | nil => exact ⟨setVal t k (.scalar v), rfl⟩
    | cons p1 prest2 =>
      cases hv : getVal t k with
      | none =>
        have hnil : ∀ q, isPre q (p1 :: prest2) → q ≠ (p1 :: prest2) → q ≠ [] →
            getNode ([] : Values) q = none ∨ ∃ sub, getNode ([] : Values) q = some (.map sub) :=
          fun q _ _ _ => Or.inl (getNode_nil q)
        obtain ⟨sub2, hrec⟩ := ih [] (by simp) hnil
        exact ⟨setVal t k (.map sub2), by simp [setNestedField, hv, hrec]⟩
      | some node =>
        have hk := hpre [k] ⟨rfl, trivial⟩ (by simp) (by simp)
        rw [show getNode t [k] = getVal t k from rfl, hv] at hk
        cases node with
        | scalar s =>
          rcases hk with hk | ⟨sub, hk⟩ <;> simp at hk
        | arr xs =>
          rcases hk with hk | ⟨sub, hk⟩ <;> simp at hk
        | map sub =>
          have hsub : ∀ q, isPre q (p1 :: prest2) → q ≠ (p1 :: prest2) → q ≠ [] →
              getNode sub q = none ∨ ∃ s2, getNode sub q = some (.map s2) := by
            intro q hq hqne hqnil
            have hkq : getNode t (k :: q) = getNode sub q := by
              rw [getNode_cons t k q hqnil, hv]
            have := hpre (k :: q) ⟨rfl, hq⟩ (by simp [hqne]) (by simp)
            rw [hkq] at this
            exact this
          obtain ⟨sub2, hrec⟩ := ih sub (by simp) hsub
          exact ⟨setVal t k (.map sub2), by simp [setNestedField, hv, hrec]⟩

theorem arrFree_getVal {t : Values} (ht : ArrFreeT t) {k : String} {n : VNode}
    (h : getVal t k = some n) : ArrFree n := by
  induction t with
  | nil => simp [getVal] at h
  | cons kv rest ih =>
    obtain ⟨kk, w⟩ := kv
    by_cases hk : kk = k
    · simp [getVal, hk] at h
      subst h
      exact ht (kk, w) (by simp)
    · simp [getVal, hk] at h
      exact ih (fun kv hkv => ht kv (by simp [hkv])) h

theorem arrFree_sub {kvs : List (String × VNode)} (h : ArrFree (.map kvs)) : ArrFreeT kvs := by
  cases h with
  | map h => exact h

theorem arrFree_setVal {t : Values} {k : String} {v : VNode}
    (ht : ArrFreeT t) (hv : ArrFree v) : ArrFreeT (setVal t k v) := by
  induction t with
  | nil =>
    intro kv hkv
    simp [setVal] at hkv
    rw [hkv]
    exact hv
  | cons kw rest ih =>
    obtain ⟨kk, w⟩ := kw
    by_cases hk : kk = k
    · intro kv hkv
      simp [setVal, hk] at hkv
      rcases hkv with hkv | hkv
      · rw [hkv]; exact hv
      · exact ht kv (by simp [hkv])
    · intro kv hkv
      simp [setVal, hk] at hkv
      rcases hkv with hkv | hkv
      · exact ht kv (by simp [hkv])
      · exact ih (fun kv2 hkv2 => ht kv2 (by simp [hkv2])) kv hkv

theorem arrFree_setNested {v : GoVal} : ∀ {p : List String} {t t2 : Values},
    setNestedField t v p = .ok t2 → ArrFreeT t → ArrFreeT t2 := by
  intro p
  induction p with
  | nil => intro t t2 h _; simp [setNestedField] at h
  | cons k prest ih =>
    intro t t2 h ht
    cases prest with
    | nil =>
      simp only [setNestedField] at h
      cases h
      exact arrFree_setVal ht (.scalar v)
    | cons p1 prest2 =>
      simp only [setNestedField] at h
      cases hv : getVal t k with
      | none =>
        simp only [hv] at h
        cases hrec : setNestedField ([] : Values) v (p1 :: prest2) with
        | error e => simp [hrec] at h
        | ok sub2 =>
          simp only [hrec] at h
          cases h
          have : ArrFreeT sub2 := ih hrec (by intro kv hkv; simp at hkv)
          exact arrFree_setVal ht (.map this)
      | some node =>
        cases node with
        | scalar s => simp [hv] at h
        | arr xs => simp [hv] at h
        | map sub =>
          simp only [hv] at h
          cases hrec : setNestedField sub v (p1 :: prest2) with
          | error e => simp [hrec] at h
          | ok sub2 =>
            simp only [hrec] at h
            cases h
            have : ArrFreeT sub2 := ih hrec (arrFree_sub (arrFree_getVal ht hv))
            exact arrFree_setVal ht (.map this)

theorem arrFree_getNode {t : Values} (ht : ArrFreeT t) :
    ∀ {q : List String} {n : VNode}, getNode t q = some n → ArrFree n := by
  intro q
  induction q generalizing t with
  | nil => intro n h; simp [getNode] at h
  | cons a as ih =>
    intro n h
    cases as with
    | nil => exact arrFree_getVal ht h
    | cons b bs =>
      rw [getNode_cons t a (b :: bs) (by simp)] at h
      cases hv : getVal t a with
      | none => rw [hv] at h; simp at h
      | some node =>
        cases node with
        | scalar s => rw [hv] at h; simp at h
        | arr xs => rw [hv] at h; simp at h
        | map sub => rw [hv] at h; exact ih (arrFree_sub (arrFree_getVal ht hv)) h

theorem add_spec {t : Values} {v : GoVal} {p : List String} {t2 : Values} {ph : String}
    (h : Values.add t v p = .ok (t2, ph)) :
    ph = refOf p ∧ setNestedField t v p = .ok t2 := by
  unfold Values.add at h
  cases hs : setNestedField t v p with
  | error e => simp [hs] at h
  | ok tt =>
    simp [hs] at h
    exact ⟨h.2.symm, by rw [← h.1]⟩

/-! ## Lemmas about container processing -/

theorem isPre_length {q p : List String} (h : isPre q p) : q.length ≤ p.length := by
  induction q generalizing p with
  | nil => simp
  | cons a as ih =>
    cases p with
    | nil => exact absurd h id
    | cons b bs => exact Nat.succ_le_succ (ih h.2)

theorem isPre_get? {q p : List String} (h : isPre q p) :
    ∀ i, i < q.length → q.get? i = p.get? i := by
  induction q generalizing p with
  | nil => intro i hi; simp at hi
  | cons a as ih =>
    cases p with
    | nil => exact absurd h id
    | cons b bs =>
      intro i hi
      cases i with
      | zero => simp [h.1]
      | succ j => simpa using ih h.2 j (by simpa using hi)

theorem isPre_eq_of_length {q p : List String} (h : isPre q p) (hl : q.length = p.length) :
    q = p := by
  induction q generalizing p with
  | nil =>
    cases p with
    | nil => rfl
    | cons b bs => simp at hl
  | cons a as ih =>
    cases p with
    | nil => exact absurd h id
    | cons b bs =>
      obtain ⟨h1, h2⟩ := h
      subst h1
      rw [ih h2 (by simpa using hl)]

theorem lastIdxOfAux_none {c : Char} : ∀ {l : List Char}, lastIdxOfAux c l = none → c ∉ l := by
  intro l
  induction l with
  | nil => intro _; simp
  | cons x xs ih =>
    intro h
    simp only [lastIdxOfAux] at h
    cases hr : lastIdxOfAux c xs with
    | some j => rw [hr] at h; simp at h
    | none =>
      rw [hr] at h
      by_cases hx : x = c
      · simp [hx] at h
      · intro hm
        rcases List.mem_cons.mp hm with hm | hm
        · exact hx hm.symm
        · exact ih hr hm

theorem lastIdxOfAux_spec {c : Char} : ∀ {l : List Char} {i : Nat},
    lastIdxOfAux c l = some i →
      i < l.length ∧ l.take i ++ c :: l.drop (i + 1) = l ∧ c ∉ l.drop (i + 1) := by
  intro l
  induction l with
  | nil => intro i h; simp [lastIdxOfAux] at h
  | cons x xs ih =>
    intro i h
    simp only [lastIdxOfAux] at h
    cases hr : lastIdxOfAux c xs with
    | some j =>
      rw [hr] at h
      simp only [Option.some.injEq] at h
      subst h
      obtain ⟨h1, h2, h3⟩ := ih hr
      refine ⟨by simpa using Nat.succ_lt_succ h1, ?_, h3⟩
      simpa using h2
    | none =>
      rw [hr] at h
      by_cases hx : x = c
      · subst hx
        rw [if_pos rfl] at h
        simp only [Option.some.injEq] at h
        subst h
        exact ⟨by simp, by simp, lastIdxOfAux_none hr⟩
      · simp [hx] at h

theorem contVals_nil : ContainerVals [] :=
  ⟨fun _ hkv => absurd hkv (by simp),
   fun q v h => by rw [lookupLeaf_nil] at h; cases h⟩

theorem imgShape_path (n cn last : String) : imgShape [n, cn, "image", last] := ⟨rfl, rfl⟩

theorem resShape_path (n cn blk k : String) : resShape [n, cn, "resources", blk, k] := ⟨rfl, rfl⟩

theorem contVals_prefix_ok {t : Values} (ht : ContainerVals t) {p : List String}
    (hp : imgShape p ∨ resShape p) :
    ∀ q, isPre q p → q ≠ p → q ≠ [] →
      getNode t q = none ∨ ∃ sub, getNode t q = some (.map sub) := by
  intro q hq hqne _
  cases hg : getNode t q with
  | none => exact Or.inl rfl
  | some n =>
    have han : ArrFree n := arrFree_getNode ht.1 hg
    cases n with
    | map sub => exact Or.inr ⟨sub, rfl⟩
    | arr xs => cases han
    | scalar v =>
      have hlk : lookupLeaf t q = some v := by simp [lookupLeaf, hg]
      have hshape := ht.2 q v hlk
      have hlen : q.length < p.length :=
        Nat.lt_of_le_of_ne (isPre_length hq) fun hh => hqne (isPre_eq_of_length hq hh)
      rcases hp with ⟨hp1, hp2⟩ | ⟨hp1, hp2⟩
      · rcases hshape with ⟨hq1, -⟩ | ⟨hq1, -⟩ <;> omega
      · rcases hshape with ⟨hq1, hq2⟩ | ⟨hq1, hq2⟩
        · have hgq := isPre_get? hq 2 (by omega)
          rw [hq2, hp2] at hgq
          simp at hgq
        · omega

theorem contVals_setNested {t t2 : Values} {v : GoVal} {p : List String}
    (ht : ContainerVals t) (hp : imgShape p ∨ resShape p)
    (h : setNestedField t v p = .ok t2) : ContainerVals t2 := by
  refine ⟨arrFree_setNested h ht.1, ?_⟩
  intro q w hq
  rw [setNested_lookupLeaf h q] at hq
  by_cases h1 : q = p
  · subst h1; exact hp
  · by_cases h2 : isPre p q ∨ isPre q p
    · simp [h1, h2] at hq
    · simp [h1, h2] at hq
      exact ht.2 q w hq

theorem setResList_ok (n cn blk : String) : ∀ (l : List (String × GoVal)) (t : Values),
    ContainerVals t → ∃ t2, setResList t n cn blk l = .ok t2 ∧ ContainerVals t2 := by
  intro l
  induction l with
  | nil => intro t ht; exact ⟨t, rfl, ht⟩
  | cons kv rest ih =>
    intro t ht
    obtain ⟨k, v⟩ := kv
    have hshape : imgShape [n, cn, "resources", blk, k] ∨ resShape [n, cn, "resources", blk, k] :=
      Or.inr (resShape_path n cn blk k)
    obtain ⟨t1, hset⟩ := setNested_ok v [n, cn, "resources", blk, k] t (by simp)
      (contVals_prefix_ok ht hshape)
    obtain ⟨t2, hrest, ht2⟩ := ih t1 (contVals_setNested ht hshape hset)
    exact ⟨t2, by simp [setResList, hset, hrest], ht2⟩

theorem setResList_lookupLeaf {n cn blk : String} : ∀ {l : List (String × GoVal)}
    {t t2 : Values}, setResList t n cn blk l = .ok t2 →
    ∀ q, q.get? 2 ≠ some "resources" → lookupLeaf t2 q = lookupLeaf t q := by
  intro l
  induction l with
  | nil =>
    intro t t2 h q _
    simp only [setResList] at h
    cases h
    rfl
  | cons kv rest ih =>
    intro t t2 h q hq
    obtain ⟨k, v⟩ := kv
    simp only [setResList] at h
    cases hset : setNestedField t v [n, cn, "resources", blk, k] with
    | error e => simp [hset] at h
    | ok t1 =>
      simp only [hset] at h
      have hp2 : [n, cn, "resources", blk, k].get? 2 = some "resources" := rfl
      have hstep : lookupLeaf t1 q = lookupLeaf t q := by
        rw [setNested_lookupLeaf hset q]
        by_cases h1 : q = [n, cn, "resources", blk, k]
        · rw [h1] at hq; exact absurd hp2 hq
        · by_cases h2 : isPre [n, cn, "resources", blk, k] q
          · have hgq := isPre_get? h2 2 (by simp)
            rw [hp2] at hgq
            exact absurd hgq.symm hq
          · by_cases h3 : isPre q [n, cn, "resources", blk, k]
            · by_cases hlen : 3 ≤ q.length
              · have hgq := isPre_get? h3 2 (by omega)
                rw [hp2] at hgq
                exact absurd hgq hq
              · have hnone := setNested_ok_prefix_none hset h3 h1
                simp [h1, h2, h3, hnone]
            · simp [h1, h2, h3]
      rw [ih h q hq, hstep]

theorem ppc_ok {c : Container} {t : Values} (ht : ContainerVals t) {idx : Nat}
    (hidx : lastIdxOf ':' c.image = some idx) (n : String) (m : AppMetadata) :
    ∃ c2 t2, processPodContainer n m c t = .ok (c2, t2) ∧ ContainerVals t2 ∧
      c2.image = imageRef n (toLowerCamel c.name) ∧
      lookupLeaf t2 [n, toLowerCamel c.name, "image", "repository"] =
        some (.str (String.mk (c.image.data.take idx))) ∧
      lookupLeaf t2 [n, toLowerCamel c.name, "image", "tag"] =
        some (.str (String.mk (c.image.data.drop (idx + 1)))) := by
  have hneq : ("repository" : String) ≠ "tag" := by decide
  have hneq2 : ("image" : String) ≠ "resources" := by decide
  obtain ⟨t1, hset1⟩ := setNested_ok (.str (String.mk (c.image.data.take idx)))
    [n, toLowerCamel c.name, "image", "repository"] t (by simp)
    (contVals_prefix_ok ht (Or.inl (imgShape_path n (toLowerCamel c.name) "repository")))
  have ht1 := contVals_setNested ht
    (Or.inl (imgShape_path n (toLowerCamel c.name) "repository")) hset1
  obtain ⟨t2, hset2⟩ := setNested_ok (.str (String.mk (c.image.data.drop (idx + 1))))
    [n, toLowerCamel c.name, "image", "tag"] t1 (by simp)
    (contVals_prefix_ok ht1 (Or.inl (imgShape_path n (toLowerCamel c.name) "tag")))
  have ht2 := contVals_setNested ht1
    (Or.inl (imgShape_path n (toLowerCamel c.name) "tag")) hset2
  obtain ⟨t3, hres1, ht3⟩ := setResList_ok n (toLowerCamel c.name) "requests" c.requests t2 ht2
  obtain ⟨t4, hres2, ht4⟩ := setResList_ok n (toLowerCamel c.name) "limits" c.limits t3 ht3
  have hrepo : lookupLeaf t4 [n, toLowerCamel c.name, "image", "repository"] =
      some (.str (String.mk (c.image.data.take idx))) := by
    rw [setResList_lookupLeaf hres2 _ (by simp [hneq2]),
        setResList_lookupLeaf hres1 _ (by simp [hneq2]),
        setNested_lookupLeaf hset2, setNested_lookupLeaf hset1]
    simp [isPre, hneq, fun hh : ("repository" : String) = "tag" => hneq hh]
  have htag : lookupLeaf t4 [n, toLowerCamel c.name, "image", "tag"] =
      some (.str (String.mk (c.image.data.drop (idx + 1)))) := by
    rw [setResList_lookupLeaf hres2 _ (by simp [hneq2]),
        setResList_lookupLeaf hres1 _ (by simp [hneq2]),
        setNested_lookupLeaf hset2]
    simp
  have hgoal : processPodContainer n m c t = .ok
      ({ c with
          image := imageRef n (toLowerCamel c.name)
          env := (c.env.map (rewriteEnvVar m)) ++ [domainEnvVar]
          envFrom := c.envFrom.map (rewriteEnvFrom m) }, t4) := by
    simp only [processPodContainer, hidx, hset1, hset2, hres1, hres2]
  exact ⟨_, t4, hgoal, ht4, rfl, hrepo, htag⟩

theorem processContainers_ok (n : String) (m : AppMetadata) :
    ∀ (cs : List Container) (t : Values), ContainerVals t →
    (∀ c ∈ cs, (lastIdxOf ':' c.image).isSome) →
    ∃ cs2 t2, processContainers n m cs t = .ok (cs2, t2) ∧ ContainerVals t2 := by
  intro cs
  induction cs with
  | nil => intro t ht _; exact ⟨[], t, rfl, ht⟩
  | cons c rest ih =>
    intro t ht hall
    obtain ⟨idx, hidx⟩ := Option.isSome_iff_exists.mp (hall c (by simp))
    obtain ⟨c2, t2, hok, ht2, -, -, -⟩ := ppc_ok ht hidx n m
    obtain ⟨cs2, t3, hrest, ht3⟩ := ih t2 ht2 fun c hc => hall c (by simp [hc])
    exact ⟨c2 :: cs2, t3, by simp [processContainers, hok, hrest], ht3⟩

theorem processContainers_err (n : String) (m : AppMetadata) (bad : Container)
    (hbad : lastIdxOf ':' bad.image = none) :
    ∀ (pre post : List Container) (t : Values), ContainerVals t →
    (∀ c ∈ pre, (lastIdxOf ':' c.image).isSome) →
    processContainers n m (pre ++ bad :: post) t =
      .error ("wrong image format: " ++ bad.image) := by
  intro pre
  induction pre with
  | nil =>
    intro post t _ _
    simp [processContainers, processPodContainer, hbad]
  | cons c rest ih =>
    intro post t ht hall
    obtain ⟨idx, hidx⟩ := Option.isSome_iff_exists.mp (hall c (by simp))
    obtain ⟨c2, t2, hok, ht2, -, -, -⟩ := ppc_ok ht hidx n m
    have hrec := ih post t2 ht2 fun cx hcx => hall cx (by simp [hcx])
    simp [processContainers, hok, hrec]

theorem processReplicas_ok_nil (name : String) (r : Option Int) :
    ∃ s vs, processReplicas name r [] = .ok (s, vs) := by
  cases r with
  | none => exact ⟨"", [], rfl⟩
  | some k =>
    obtain ⟨t2, hset⟩ := setNested_ok (.int k) [name, "replicas"] [] (by simp)
      fun q _ _ _ => Or.inl (getNode_nil q)
    refine ⟨removeChar sqChar (marshalStrField "replicas" (refOf [name, "replicas"]) 2), t2, ?_⟩
    simp [processReplicas, Values.add, hset]

/-! ## Claim theorems -/

/-- C7: for every container image reference containing at least one `:`, the
reference is split at its last `:` into repository and tag (the tag part
contains no further `:` and repository, `:`, tag re-concatenate to the
original reference), both are inserted into the fragment under the
container's path, and the image field is rewritten to
`{{ .Values.<path>.image.repository }}:{{ .Values.<path>.image.tag | default .Chart.AppVersion }}`. -/
theorem c7_image_split (n : String) (m : AppMetadata) (c : Container) (t : Values)
    (ht : ContainerVals t) (idx : Nat) (hidx : lastIdxOf ':' c.image = some idx) :
    ∃ c2 t2,
      processPodContainer n m c t = .ok (c2, t2) ∧
      String.mk (c.image.data.take idx) ++ ":" ++ String.mk (c.image.data.drop (idx + 1)) =
        c.image ∧
      ':' ∉ c.image.data.drop (idx + 1) ∧
      c2.image = imageRef n (toLowerCamel c.name) ∧
      lookupLeaf t2 [n, toLowerCamel c.name, "image", "repository"] =
        some (.str (String.mk (c.image.data.take idx))) ∧
      lookupLeaf t2 [n, toLowerCamel c.name, "image", "tag"] =
        some (.str (String.mk (c.image.data.drop (idx + 1)))) := by
  obtain ⟨c2, t2, hok, -, himg, hrepo, htag⟩ := ppc_ok ht hidx n m
  obtain ⟨-, hsplit, hnot⟩ := lastIdxOfAux_spec hidx
  refine ⟨c2, t2, hok, ?_, hnot, himg, hrepo, htag⟩
  have hcat : String.mk (c.image.data.take idx) ++ ":" ++
      String.mk (c.image.data.drop (idx + 1)) =
      String.mk (c.image.data.take idx ++ ':' :: c.image.data.drop (idx + 1)) := by
    show String.mk ((c.image.data.take idx ++ [':']) ++ c.image.data.drop (idx + 1)) = _
    rw [List.append_assoc]
    rfl
  rw [hcat, hsplit]

/-- C7 witness: the scenario image `"redis:6.2"` on a fresh values tree,
yielding repository `"redis"` and tag `"6.2"`. -/
theorem c7_image_split_witness :
    ∃ c2 t2,
      processPodContainer "app" idMeta redisTaggedContainer [] = .ok (c2, t2) ∧
      String.mk (redisTaggedContainer.image.data.take 5) ++ ":" ++
        String.mk (redisTaggedContainer.image.data.drop 6) = redisTaggedContainer.image ∧
      ':' ∉ redisTaggedContainer.image.data.drop 6 ∧
      c2.image = imageRef "app" (toLowerCamel redisTaggedContainer.name) ∧
      lookupLeaf t2 ["app", toLowerCamel redisTaggedContainer.name, "image", "repository"] =
        some (.str (String.mk (redisTaggedContainer.image.data.take 5))) ∧
      lookupLeaf t2 ["app", toLowerCamel redisTaggedContainer.name, "image", "tag"] =
        some (.str (String.mk (redisTaggedContainer.image.data.drop 6))) :=
  c7_image_split "app" idMeta redisTaggedContainer [] contVals_nil 5 (by rfl)

/-- C6: for every StatefulSet containing a container whose image reference
has no `:`, processing rejects the whole resource with a malformed-image
error naming the image, and the Process call returns an error with a nil
template — no Template Document and no values fragment is produced. -/
theorem c6_malformed_image (m : AppMetadata) (obj : StatefulSetObj)
    (hg : obj.group = "apps" ∧ obj.version = "v1" ∧ obj.kind = "StatefulSet")
    (pre post : List Container) (bad : Container)
    (hsplit : obj.spec.podSpec.containers = pre ++ bad :: post)
    (hpre : ∀ c ∈ pre, (lastIdxOf ':' c.image).isSome)
    (hbad : lastIdxOf ':' bad.image = none) :
    stsProcess m obj = .failed ("wrong image format: " ++ bad.image) := by
  obtain ⟨s, vs, hrep⟩ := processReplicas_ok_nil (m.trimName obj.name) obj.spec.replicas
  have herr : processPodSpec (toLowerCamel (m.trimName obj.name)) m obj.spec.podSpec =
      .error ("wrong image format: " ++ bad.image) := by
    unfold processPodSpec
    rw [hsplit, processContainers_err _ _ bad hbad pre post [] contVals_nil hpre]
  simp [stsProcess, hg.1, hg.2.1, hg.2.2, hrep, herr]

/-- C6 witness: the test fixture StatefulSet whose only container has image
`"redis"` (no colon) is rejected with the malformed-image error. -/
theorem c6_malformed_image_witness :
    stsProcess idMeta redisStatefulSet = .failed ("wrong image format: " ++ "redis") :=
  c6_malformed_image idMeta redisStatefulSet ⟨rfl, rfl, rfl⟩ [] [] redisContainer rfl
    (by simp) (by rfl)

/-- C4 counterexample: the containers `redis` and `Redis` have distinct
original names that both normalize to `redis`; pod-spec processing succeeds
(no naming conflict is surfaced) and the extracted image values at the shared
path are the second container's, the first container's extracted repository
`repo-one` having been silently overwritten. -/
theorem c4_counterexample :
    toLowerCamel collideContainerA.name = toLowerCamel collideContainerB.name ∧
    collideContainerA.name ≠ collideContainerB.name ∧
    ∃ pod2 vals,
      processPodSpec "app" idMeta ⟨[collideContainerA, collideContainerB], [], "", []⟩ =
        .ok (pod2, vals) ∧
      lookupLeaf vals ["app", "redis", "image", "repository"] = some (.str "repo-two") ∧
      lookupLeaf vals ["app", "redis", "image", "tag"] = some (.str "2.0") ∧
      lookupLeaf vals ["app", "redis", "image", "repository"] ≠ some (.str "repo-one") := by
  refine ⟨rfl, by decide, _, _, rfl, rfl, rfl, by decide⟩

/-- C4 (amended): if two containers of one StatefulSet have names that
normalize (lower camel case) to the same identifier, the collision is not
surfaced: pod-spec processing succeeds, and the second container's extracted
image repository and tag silently overwrite the first container's values at
the shared path. -/
theorem c4_silent_overwrite (n : String) (m : AppMetadata) (c1 c2 : Container)
    (hname : toLowerCamel c1.name = toLowerCamel c2.name)
    (idx1 : Nat) (h1 : lastIdxOf ':' c1.image = some idx1)
    (idx2 : Nat) (h2 : lastIdxOf ':' c2.image = some idx2)
    (vols : List PodVolume) (sa : String) (ips : List String) :
    ∃ pod2 vals,
      processPodSpec n m ⟨[c1, c2], vols, sa, ips⟩ = .ok (pod2, vals) ∧
      lookupLeaf vals [n, toLowerCamel c1.name, "image", "repository"] =
        some (.str (String.mk (c2.image.data.take idx2))) ∧
      lookupLeaf vals [n, toLowerCamel c1.name, "image", "tag"] =
        some (.str (String.mk (c2.image.data.drop (idx2 + 1)))) := by
  obtain ⟨c1b, t1, hok1, ht1, -, -, -⟩ := ppc_ok contVals_nil h1 n m
  obtain ⟨c2b, t2, hok2, ht2, -, hrepo, htag⟩ := ppc_ok ht1 h2 n m
  have hps : processPodSpec n m ⟨[c1, c2], vols, sa, ips⟩ =
      .ok (⟨[c1b, c2b], vols.map (rewriteVolume m), m.templatedName sa,
            ips.map m.templatedName⟩, t2) := by
    simp [processPodSpec, processContainers, hok1, hok2]
  refine ⟨_, _, hps, ?_, ?_⟩
  · rw [hname]; exact hrepo
  · rw [hname]; exact htag

/-- C4 witness: the amended claim realized on the colliding containers
`redis` / `Redis`. -/
theorem c4_silent_overwrite_witness :
    ∃ pod2 vals,
      processPodSpec "app" idMeta ⟨[collideContainerA, collideContainerB], [], "", []⟩ =
        .ok (pod2, vals) ∧
      lookupLeaf vals ["app", toLowerCamel collideContainerA.name, "image", "repository"] =
        some (.str (String.mk (collideContainerB.image.data.take 8))) ∧
      lookupLeaf vals ["app", toLowerCamel collideContainerA.name, "image", "tag"] =
        some (.str (String.mk (collideContainerB.image.data.drop 9))) :=
  c4_silent_overwrite "app" idMeta collideContainerA collideContainerB rfl 8 (by rfl)
    8 (by rfl) [] "" []

theorem str_append_empty (s : String) : s ++ "" = s := by
  cases s with
  | mk l =>
    show String.mk (l ++ []) = String.mk l
    rw [List.append_nil]

theorem nl_append_ne_empty (y : String) : ("\n" ++ y) ≠ "" := by
  intro h
  have h2 : ("\n" ++ y).data = ("" : String).data := congrArg String.data h
  cases y with
  | mk l =>
    have h3 : ('\n' :: l) = ([] : List Char) := h2
    cases h3

/-- C5 counterexample: processing a StatefulSet with one volume-claim
template succeeds, and the volume-claim section is appended (marshalled
wholesale) to the Template Document, but the values fragment contains only
the container image subtree — contrary to the claim, no volume-claim data is
extracted into the resource's Values Tree fragment. -/
theorem c5_counterexample :
    ∃ r, stsProcess idMeta vctStatefulSet = .ok r ∧
      r.data.vct = "\n" ++ marshalVCTs ["data-claim"] 2 ∧
      renderStatefulSet r.data =
        renderStatefulSet { r.data with vct := "" } ++
          ("\n" ++ ("\n" ++ marshalVCTs ["data-claim"] 2)) ∧
      r.values = [("web", .map [("web", .map [("image",
        .map [("repository", .scalar (.str "nginx")),
              ("tag", .scalar (.str "1.2"))])])])] := by
  refine ⟨_, rfl, rfl, ?_, rfl⟩
  have hne : vctStatefulSet.spec.volumeClaimTemplates = ["data-claim"] := rfl
  simp [renderStatefulSet, hne, nl_append_ne_empty, str_append_empty]

/-- C5 (amended): for every accepted StatefulSet, the volume-claim templates
are marshalled wholesale and appended to the Template Document exactly when
the list is non-empty (when it is empty or absent nothing is appended); they
are not extracted into the Values Tree fragment — the produced values are
independent of the volume-claim-templates list. -/
theorem c5_vct_wholesale (m : AppMetadata) (obj : StatefulSetObj) (r : SResult)
    (h : stsProcess m obj = .ok r) :
    r.data.vct = (if obj.spec.volumeClaimTemplates.isEmpty then ""
      else "\n" ++ marshalVCTs obj.spec.volumeClaimTemplates 2) ∧
    (obj.spec.volumeClaimTemplates.isEmpty = true →
      renderStatefulSet r.data = renderStatefulSet { r.data with vct := "" }) ∧
    (obj.spec.volumeClaimTemplates.isEmpty = false →
      renderStatefulSet r.data = renderStatefulSet { r.data with vct := "" } ++
        ("\n" ++ ("\n" ++ marshalVCTs obj.spec.volumeClaimTemplates 2))) ∧
    (∀ (l : List String) (r2 : SResult),
      stsProcess m { obj with spec := { obj.spec with volumeClaimTemplates := l } } = .ok r2 →
      r2.values = r.values) := by
  simp only [stsProcess] at h
  by_cases hg : ¬(obj.group = "apps" ∧ obj.version = "v1" ∧ obj.kind = "StatefulSet")
  · rw [if_pos hg] at h
    simp at h
  · rw [if_neg hg] at h
    cases hrep : processReplicas (m.trimName obj.name) obj.spec.replicas [] with
    | error e => simp only [hrep] at h; simp at h
    | ok sv =>
      obtain ⟨s, vs⟩ := sv
      simp only [hrep] at h
      cases hps : processPodSpec (toLowerCamel (m.trimName obj.name)) m obj.spec.podSpec with
      | error e => simp only [hps] at h; simp at h
      | ok pp =>
        obtain ⟨pod1, pv⟩ := pp
        simp only [hps] at h
        cases hmg : mergeValues vs pv with
        | error e => simp only [hmg] at h; simp at h
        | ok vals2 =>
          simp only [hmg] at h
          cases hrb : resBlocks vals2 (toLowerCamel (m.trimName obj.name)) pod1.containers with
          | error e => simp only [hrb] at h; simp at h
          | ok pairs =>
            simp only [hrb] at h
            simp only [ProcResult.ok.injEq] at h
            subst h
            refine ⟨rfl, ?_, ?_, ?_⟩
            · intro hempty
              simp [renderStatefulSet, hempty]
            · intro hempty
              simp [renderStatefulSet, hempty, nl_append_ne_empty, str_append_empty]
            · intro l r2 h2
              simp only [stsProcess] at h2
              rw [if_neg hg] at h2
              simp only [hrep, hps, hmg, hrb] at h2
              simp only [ProcResult.ok.injEq] at h2
              subst h2
              rfl

/-- C5 witness: the amended claim realized on the fixture with one
volume-claim template. -/
theorem c5_vct_wholesale_witness :
    ∃ r, stsProcess idMeta vctStatefulSet = .ok r ∧
      r.data.vct = (if vctStatefulSet.spec.volumeClaimTemplates.isEmpty then ""
        else "\n" ++ marshalVCTs vctStatefulSet.spec.volumeClaimTemplates 2) ∧
      (∀ (l : List String) (r2 : SResult),
        stsProcess idMeta
          { vctStatefulSet with
              spec := { vctStatefulSet.spec with volumeClaimTemplates := l } } = .ok r2 →
        r2.values = r.values) := by
  refine ⟨_, rfl, ?_, ?_⟩
  · exact (c5_vct_wholesale idMeta vctStatefulSet _ rfl).1
  · exact (c5_vct_wholesale idMeta vctStatefulSet _ rfl).2.2.2

/-- Any scalar leaf that the structural extractor adds (beyond what the
incoming tree already held) sits at a path whose last segment is neither
`kind` nor `apiVersion`. -/
theorem parseConfig_lastSeg :
    ∀ (cfg : List (String × GoJson)) (t : Values) (p : List String) (q : List String) (w : GoVal),
      lookupLeaf (parseConfig cfg t p).2.1 q = some w →
      lookupLeaf t q = some w ∨
        (q.getLast? ≠ some "kind" ∧ q.getLast? ≠ some "apiVersion") := by
  refine parseConfig.induct
    (fun k v t p => ∀ q w, lookupLeaf (parseEntry k v t p).2.1 q = some w →
      lookupLeaf t q = some w ∨
        (q.getLast? ≠ some "kind" ∧ q.getLast? ≠ some "apiVersion"))
    (fun cfg t p => ∀ q w, lookupLeaf (parseConfig cfg t p).2.1 q = some w →
      lookupLeaf t q = some w ∨
        (q.getLast? ≠ some "kind" ∧ q.getLast? ≠ some "apiVersion"))
    ?_ ?_ ?_ ?_ ?_ ?_ ?_ ?_
  · intro k t p s hdisc q w h
    simp only [parseEntry, if_pos hdisc] at h
    exact Or.inl h
  · intro k t p s hdisc values2 templated hadd q w h
    obtain ⟨hph, hset⟩ := add_spec hadd
    simp only [parseEntry, if_neg hdisc, hadd] at h
    rw [setNested_lookupLeaf hset q] at h
    by_cases h1 : q = p ++ [k]
    · subst h1
      push_neg at hdisc
      refine Or.inr ⟨?_, ?_⟩ <;> rw [List.getLast?_concat] <;> simp [hdisc.1, hdisc.2]
    · by_cases h2 : isPre (p ++ [k]) q ∨ isPre q (p ++ [k])
      · simp [h1, h2] at h
      · simp [h1, h2] at h
        exact Or.inl h
  · intro k t p s hdisc e herr q w h
    simp only [parseEntry, if_neg hdisc, herr] at h
    exact Or.inl h
  · intro k t p xs q w h
    simp only [parseEntry] at h
    exact Or.inl h
  · intro k t p sub ih q w h
    simp only [parseEntry] at h
    exact ih q w h
  · intro k t p q w h
    simp only [parseEntry] at h
    exact Or.inl h
  · intro t p q w h
    exact Or.inl h
  · intro t p k v rest r1 ih1 ih2 q w h
    rcases ih2 q w h with h2 | h2
    · exact ih1 q w h2
    · exact Or.inr h2

/-- The structural extractor leaves `kind`/`apiVersion` scalar entries of the
payload untouched (they are never replaced by placeholders). -/
theorem parseConfig_keeps_discriminator :
    ∀ (cfg : List (String × GoJson)) (t : Values) (p : List String) (i : Nat)
      (k : String) (s : GoVal),
      cfg.get? i = some (k, .scalar s) → (k = "kind" ∨ k = "apiVersion") →
      (parseConfig cfg t p).1.get? i = some (k, .scalar s) := by
  intro cfg
  induction cfg with
  | nil =>
    intro t p i k s hget
    simp at hget
  | cons kv rest ih =>
    intro t p i k s hget hdisc
    obtain ⟨k0, v0⟩ := kv
    cases i with
    | zero =>
      simp only [List.get?] at hget
      injection hget with hget
      injection hget with hk hv
      subst hk
      subst hv
      simp [parseConfig, parseEntry, if_pos hdisc]
    | succ j =>
      simp only [List.get?] at hget
      simp only [parseConfig, List.get?]
      exact ih _ p j k s hget hdisc

/-! ## Lemmas for the order-independence of the structural extractor -/

theorem stripPre_append (p r : List String) : stripPre p (p ++ r) = some r := by
  induction p with
  | nil => rfl
  | cons a as ih => simp [stripPre, ih]

theorem stripPre_eq_some : ∀ {p q r : List String}, stripPre p q = some r → q = p ++ r := by
  intro p
  induction p with
  | nil =>
    intro q r h
    simp [stripPre] at h
    simp [h]
  | cons a as ih =>
    intro q r h
    cases q with
    | nil => simp [stripPre] at h
    | cons b bs =>
      simp only [stripPre] at h
      by_cases hab : a = b
      · subst hab
        rw [if_pos rfl] at h
        simp [ih h]
      · rw [if_neg hab] at h
        cases h

theorem isPre_exists : ∀ {a b : List String}, isPre a b ↔ ∃ r, b = a ++ r := by
  intro a
  induction a with
  | nil =>
    intro b
    simp [isPre]
  | cons x xs ih =>
    intro b
    cases b with
    | nil =>
      simp only [isPre]
      constructor
      · intro h; exact absurd h id
      · rintro ⟨r, hr⟩; cases hr
    | cons y ys =>
      constructor
      · rintro ⟨rfl, hpre⟩
        obtain ⟨r, rfl⟩ := ih.mp hpre
        exact ⟨r, rfl⟩
      · rintro ⟨r, hr⟩
        injection hr with h1 h2
        exact ⟨h1.symm, ih.mpr ⟨r, h2⟩⟩

theorem stripPre_none {p q : List String} (h : stripPre p q = none) : ¬ isPre p q := by
  intro hp
  obtain ⟨r, rfl⟩ := isPre_exists.mp hp
  rw [stripPre_append] at h
  cases h

theorem isPre_snoc : ∀ {q p : List String} (k : String), isPre q (p ++ [k]) →
    isPre q p ∨ q = p ++ [k] := by
  intro q p
  induction p generalizing q with
  | nil =>
    intro k h
    cases q with
    | nil => exact Or.inl trivial
    | cons a as =>
      obtain ⟨ha, has⟩ := h
      subst ha
      have := isPre_nil_right has
      subst this
      exact Or.inr rfl
  | cons b bs ih =>
    intro k h
    cases q with
    | nil => exact Or.inl trivial
    | cons a as =>
      obtain ⟨rfl, has⟩ := h
      rcases ih k has with h1 | h1
      · exact Or.inl ⟨rfl, h1⟩
      · exact Or.inr (by rw [h1]; rfl)

theorem findP_append (A B : List (List String × GoVal)) (q : List String) :
    findP (A ++ B) q =
      match findP A q with
      | some w => some w
      | none => findP B q := by
  induction A with
  | nil => rfl
  | cons x xs ih =>
    obtain ⟨xp, xv⟩ := x
    by_cases hx : xp = q
    · simp [findP, hx]
    · simp [findP, hx, ih]

theorem findP_none_of (L : List (List String × GoVal)) (q : List String)
    (h : ∀ pv ∈ L, pv.1 ≠ q) : findP L q = none := by
  induction L with
  | nil => rfl
  | cons x xs ih =>
    obtain ⟨xp, xv⟩ := x
    have hx : xp ≠ q := h (xp, xv) (by simp)
    simp only [findP, if_neg hx]
    exact ih fun pv hpv => h pv (by simp [hpv])

theorem leafPathsEntry_heads : ∀ (k : String) (v : GoJson) (pv : List String × GoVal),
    pv ∈ leafPathsEntry k v → ∃ r, pv.1 = k :: r := by
  intro k v
  cases v with
  | scalar s =>
    intro pv h
    simp only [leafPathsEntry] at h
    by_cases hd : k = "kind" ∨ k = "apiVersion"
    · rw [if_pos hd] at h; simp at h
    · rw [if_neg hd] at h
      simp at h
      subst h
      exact ⟨[], rfl⟩
  | null => simp [leafPathsEntry]
  | arr xs => simp [leafPathsEntry]
  | obj sub =>
    intro pv h
    simp only [leafPathsEntry, List.mem_map] at h
    obtain ⟨pv0, -, heq⟩ := h
    rw [← heq]
    exact ⟨pv0.1, rfl⟩

theorem leafPaths_heads : ∀ (cfg : List (String × GoJson)) (pv : List String × GoVal),
    pv ∈ leafPaths cfg → ∃ k r, pv.1 = k :: r ∧ k ∈ cfg.map Prod.fst := by
  intro cfg
  induction cfg with
  | nil => simp [leafPaths]
  | cons kv rest ih =>
    obtain ⟨k, v⟩ := kv
    intro pv h
    simp only [leafPaths, List.mem_append] at h
    rcases h with h | h
    · obtain ⟨r, hr⟩ := leafPathsEntry_heads k v pv h
      exact ⟨k, r, hr, by simp⟩
    · obtain ⟨k2, r, hr, hk⟩ := ih pv h
      exact ⟨k2, r, hr, by simp [hk]⟩

theorem findP_map_cons (k : String) : ∀ (L : List (List String × GoVal)) (q : List String),
    findP (L.map fun pv => (k :: pv.1, pv.2)) q =
      match q with
      | [] => none
      | k2 :: r => if k2 = k then findP L r else none := by
  intro L
  induction L with
  | nil => intro q; cases q <;> simp [findP]
  | cons pv rest ih =>
    intro q
    obtain ⟨pp, pw⟩ := pv
    cases q with
    | nil => simp [findP, ih]
    | cons k2 r =>
      by_cases hk : k2 = k
      · subst hk
        by_cases hp : pp = r
        · simp [findP, hp]
        · have hne : (k2 :: pp) ≠ (k2 :: r) := by simp [hp]
          simp only [List.map_cons, findP, if_neg hne, ih]
          simp [findP, hp]
      · have hne : (k :: pp) ≠ (k2 :: r) := by
          intro h
          injection h with h1 _
          exact hk h1.symm
        simp only [List.map_cons, findP, if_neg hne, ih]
        simp [hk]

theorem leafPaths_append (a b : List (String × GoJson)) :
    leafPaths (a ++ b) = leafPaths a ++ leafPaths b := by
  induction a with
  | nil => rfl
  | cons kv rest ih =>
    obtain ⟨k, v⟩ := kv
    simp [leafPaths, ih]

theorem wfObj_iff : ∀ (l : List (String × GoJson)),
    wfObj l ↔ (l.map Prod.fst).Nodup ∧ ∀ kv ∈ l, wfJson kv.2 := by
  intro l
  induction l with
  | nil => simp [wfObj]
  | cons kv rest ih =>
    obtain ⟨k, v⟩ := kv
    simp only [wfObj, List.map_cons, List.nodup_cons, List.mem_map, ih]
    constructor
    · rintro ⟨h1, h2, h3, h4⟩
      refine ⟨⟨?_, h3⟩, ?_⟩
      · rintro ⟨kv, hkv, hk⟩
        exact h1 kv hkv hk
      · intro kv hkv
        rcases List.mem_cons.mp hkv with rfl | hm
        · exact h2
        · exact h4 kv hm
    · rintro ⟨⟨h1, h2⟩, h3⟩
      refine ⟨?_, h3 (k, v) (by simp), h2, ?_⟩
      · intro kv hkv hk
        exact h1 ⟨kv, hkv, hk⟩
      · intro kv hkv
        exact h3 kv (by simp [hkv])

theorem objEquiv_bundle : ∀ {l1 l2 : List (String × GoJson)}, ObjEquiv l1 l2 →
    (l1.map Prod.fst).Perm (l2.map Prod.fst) ∧
    ((∀ kv ∈ l1, wfJson kv.2) → ∀ kv ∈ l2, wfJson kv.2) ∧
    (leafPaths l1).Perm (leafPaths l2) := by
  intro l1 l2 h
  refine @ObjEquiv.rec
    (fun v v2 _ => (wfJson v → wfJson v2) ∧
      ∀ k, (leafPathsEntry k v).Perm (leafPathsEntry k v2))
    (fun l1 l2 _ => (l1.map Prod.fst).Perm (l2.map Prod.fst) ∧
      ((∀ kv ∈ l1, wfJson kv.2) → ∀ kv ∈ l2, wfJson kv.2) ∧
      (leafPaths l1).Perm (leafPaths l2))
    ?_ ?_ ?_ ?_ ?_ ?_ l1 l2 h
  · exact fun v => ⟨id, fun k => List.Perm.refl _⟩
  · exact ⟨id, fun k => List.Perm.refl _⟩
  · exact fun xs => ⟨id, fun k => List.Perm.refl _⟩
  · intro kvs1 kvs2 hobj ihobj
    constructor
    · intro hwf
      have hwf1 : wfObj kvs1 := hwf
      have hwf2 : wfObj kvs2 := by
        rw [wfObj_iff] at hwf1 ⊢
        exact ⟨ihobj.1.nodup hwf1.1, ihobj.2.1 hwf1.2⟩
      exact hwf2
    · intro k
      simp only [leafPathsEntry]
      exact ihobj.2.2.map _
  · exact ⟨List.Perm.refl _, fun _ kv hkv => absurd hkv (List.not_mem_nil kv),
      List.Perm.refl _⟩
  · intro k v v2 l1 l2a l2b hv hl ih1 ih2
    refine ⟨?_, ?_, ?_⟩
    · have hk1 : ((k, v) :: l1).map Prod.fst = k :: l1.map Prod.fst := rfl
      have hk2 : (l2a ++ (k, v2) :: l2b).map Prod.fst =
          l2a.map Prod.fst ++ k :: l2b.map Prod.fst := by
        simp
      rw [hk1, hk2]
      have hmid := ih2.1
      rw [List.map_append] at hmid
      exact List.Perm.trans (List.Perm.cons k hmid) List.perm_middle.symm
    · intro hwf kv hkv
      rcases List.mem_append.mp hkv with hm | hm
      · exact ih2.2.1 (fun kv2 hkv2 => hwf kv2 (by simp [hkv2])) kv
          (List.mem_append.mpr (Or.inl hm))
      · rcases List.mem_cons.mp hm with rfl | hm2
        · exact ih1.1 (hwf (k, v) (by simp))
        · exact ih2.2.1 (fun kv2 hkv2 => hwf kv2 (by simp [hkv2])) kv
            (List.mem_append.mpr (Or.inr hm2))
    · have h1 : leafPaths ((k, v) :: l1) = leafPathsEntry k v ++ leafPaths l1 := rfl
      have h2 : leafPaths (l2a ++ (k, v2) :: l2b) =
          leafPaths l2a ++ (leafPathsEntry k v2 ++ leafPaths l2b) := by
        rw [leafPaths_append]
        rfl
      rw [h1, h2]
      have s1 : (leafPathsEntry k v ++ leafPaths l1).Perm
          (leafPathsEntry k v2 ++ leafPaths l1) := (ih1.2 k).append_right _
      have hmid := ih2.2.2
      rw [leafPaths_append] at hmid
      have s2 : (leafPathsEntry k v2 ++ leafPaths l1).Perm
          (leafPathsEntry k v2 ++ (leafPaths l2a ++ leafPaths l2b)) :=
        List.Perm.append_left _ hmid
      have s3 : (leafPathsEntry k v2 ++ (leafPaths l2a ++ leafPaths l2b)).Perm
          (leafPaths l2a ++ (leafPathsEntry k v2 ++ leafPaths l2b)) := by
        rw [← List.append_assoc, ← List.append_assoc]
        exact List.perm_append_comm.append_right _
      exact (s1.trans s2).trans s3

theorem wfObj_equiv {l1 l2 : List (String × GoJson)} (hwf : wfObj l1) (h : ObjEquiv l1 l2) :
    wfObj l2 := by
  rw [wfObj_iff] at hwf ⊢
  exact ⟨(objEquiv_bundle h).1.nodup hwf.1, (objEquiv_bundle h).2.1 hwf.2⟩

theorem findP_perm : ∀ {L1 L2 : List (List String × GoVal)}, L1.Perm L2 →
    (L1.map Prod.fst).Nodup → ∀ q, findP L1 q = findP L2 q := by
  intro L1 L2 h
  induction h with
  | nil => intro _ _; rfl
  | cons x h ih =>
    intro hn q
    obtain ⟨xp, xv⟩ := x
    simp only [List.map_cons, List.nodup_cons] at hn
    by_cases hx : xp = q <;> simp [findP, hx, ih hn.2 q]
  | swap x y l =>
    intro hn q
    obtain ⟨xp, xv⟩ := x
    obtain ⟨yp, yv⟩ := y
    have hmap2 : ((yp, yv) :: (xp, xv) :: l).map Prod.fst =
        yp :: xp :: l.map Prod.fst := rfl
    rw [hmap2, List.nodup_cons] at hn
    have hxy : yp ≠ xp := by
      intro hh
      refine hn.1 ?_
      rw [hh]
      exact List.mem_cons_self _ _
    by_cases h1 : yp = q
    · subst h1
      have hx : ¬ xp = yp := fun hh => hxy hh.symm
      simp [findP, hx]
    · by_cases h2 : xp = q <;> simp [findP, h1, h2]
  | trans h1 h2 ih1 ih2 =>
    intro hn q
    rw [ih1 hn q, ih2 ((h1.map Prod.fst).nodup hn) q]

theorem leafPaths_nodup : ∀ (cfg : List (String × GoJson)), wfObj cfg →
    ((leafPaths cfg).map Prod.fst).Nodup := by
  refine leafPaths.induct
    (fun k v => wfJson v → ((leafPathsEntry k v).map Prod.fst).Nodup)
    (fun cfg => wfObj cfg → ((leafPaths cfg).map Prod.fst).Nodup)
    ?_ ?_ ?_ ?_ ?_ ?_ ?_
  · intro k s hd _
    simp [leafPathsEntry, if_pos hd]
  · intro k s hd _
    simp [leafPathsEntry, if_neg hd]
  · intro k _
    simp [leafPathsEntry]
  · intro k xs _
    simp [leafPathsEntry]
  · intro k sub ih hwf
    have hsub : wfObj sub := hwf
    have hmap : (leafPathsEntry k (.obj sub)).map Prod.fst =
        ((leafPaths sub).map Prod.fst).map (fun x => k :: x) := by
      simp [leafPathsEntry, List.map_map]
    rw [hmap]
    refine (ih hsub).map ?_
    intro a b hab
    injection hab
  · intro _
    simp [leafPaths]
  · intro k v rest ih1 ih2 hwf
    obtain ⟨h1, h2, h3⟩ := hwf
    have hl : leafPaths ((k, v) :: rest) = leafPathsEntry k v ++ leafPaths rest := rfl
    rw [hl, List.map_append]
    refine (ih1 h2).append (ih2 h3) ?_
    intro a ha hb
    simp only [List.mem_map] at ha hb
    obtain ⟨pv1, hpv1, rfl⟩ := ha
    obtain ⟨pv2, hpv2, heq⟩ := hb
    obtain ⟨r1, hr1⟩ := leafPathsEntry_heads k v pv1 hpv1
    obtain ⟨k2, r2, hr2, hk2⟩ := leafPaths_heads rest pv2 hpv2
    rw [hr1] at heq
    rw [hr2] at heq
    injection heq.symm with hgot _
    simp only [List.mem_map] at hk2
    obtain ⟨kv2, hkv2, hkfst⟩ := hk2
    exact h1 kv2 hkv2 (by rw [hkfst, ← hgot])

theorem lookupLeaf_nil_path (t : Values) : lookupLeaf t [] = none := rfl

theorem overlayLeaf_none {L : List (List String × GoVal)} {p : List String} {t : Values}
    {q : List String} (h : stripPre p q = none) : overlayLeaf L p t q = lookupLeaf t q := by
  simp [overlayLeaf, h]

theorem overlayLeaf_some {L : List (List String × GoVal)} {p : List String} {t : Values}
    {q rel : List String} (h : stripPre p q = some rel) :
    overlayLeaf L p t q =
      match findP L rel with
      | some w => some w
      | none => lookupLeaf t q := by
  simp [overlayLeaf, h]

theorem stripPre_snoc : ∀ (p : List String) (k : String) (q : List String),
    stripPre (p ++ [k]) q =
      match stripPre p q with
      | some (k2 :: r) => if k2 = k then some r else none
      | _ => none := by
  intro p
  induction p with
  | nil =>
    intro k q
    cases q with
    | nil => rfl
    | cons b bs =>
      by_cases h : k = b
      · subst h
        simp [stripPre]
      · have h2 : ¬ b = k := fun hh => h hh.symm
        simp [stripPre, h, h2]
  | cons a as ih =>
    intro k q
    cases q with
    | nil => rfl
    | cons b bs =>
      by_cases h : a = b
      · subst h
        simp only [List.cons_append, stripPre, if_pos rfl]
        exact ih k bs
      · simp [List.cons_append, stripPre, h]

theorem findP_mem : ∀ {L : List (List String × GoVal)} {q : List String} {w : GoVal},
    findP L q = some w → q ∈ L.map Prod.fst := by
  intro L
  induction L with
  | nil =>
    intro q w h
    cases h
  | cons x xs ih =>
    intro q w h
    obtain ⟨xp, xv⟩ := x
    by_cases hx : xp = q
    · subst hx
      show xp ∈ xp :: xs.map Prod.fst
      exact List.mem_cons_self _ _
    · simp only [findP, if_neg hx] at h
      simp [ih h]

theorem isPre_cancel : ∀ (p : List String) {a b : List String},
    isPre (p ++ a) (p ++ b) → isPre a b := by
  intro p
  induction p with
  | nil => intro a b h; exact h
  | cons x xs ih => intro a b h; exact ih h.2

theorem isPre_trans {a b c : List String} (h1 : isPre a b) (h2 : isPre b c) : isPre a c := by
  obtain ⟨r1, rfl⟩ := isPre_exists.mp h1
  obtain ⟨r2, rfl⟩ := isPre_exists.mp h2
  exact isPre_exists.mpr ⟨r1 ++ r2, List.append_assoc a r1 r2⟩

theorem setNested_getNode {v : GoVal} : ∀ {p : List String} {t t2 : Values},
    setNestedField t v p = .ok t2 → ∀ q,
      getNode t2 q = none ∨ (∃ sub, getNode t2 q = some (.map sub)) ∨
        getNode t2 q = getNode t q ∨ q = p := by
  intro p
  induction p with
  | nil =>
    intro t t2 h
    simp [setNestedField] at h
  | cons k prest ih =>
    intro t t2 h q
    cases prest with
    | nil =>
      simp only [setNestedField] at h
      cases h
      cases q with
      | nil => exact Or.inl rfl
      | cons a as =>
        by_cases hak : a = k
        · subst hak
          cases as with
          | nil => exact Or.inr (Or.inr (Or.inr rfl))
          | cons b bs =>
            refine Or.inl ?_
            rw [getNode_cons _ _ _ (by simp)]
            simp [getVal_setVal]
        · have hka : ¬ k = a := fun hh => hak hh.symm
          refine Or.inr (Or.inr (Or.inl ?_))
          cases as with
          | nil => simp [getNode, getVal_setVal, hka]
          | cons b bs =>
            rw [getNode_cons _ _ _ (by simp), getNode_cons _ _ _ (by simp), getVal_setVal]
            simp [hka]
    | cons p1 prest2 =>
      simp only [setNestedField] at h
      have main : ∀ sub sub2 : Values,
          (getVal t k = some (.map sub) ∨ (getVal t k = none ∧ sub = [])) →
          setNestedField sub v (p1 :: prest2) = .ok sub2 →
          t2 = setVal t k (.map sub2) →
          getNode t2 q = none ∨ (∃ s2, getNode t2 q = some (.map s2)) ∨
            getNode t2 q = getNode t q ∨ q = k :: p1 :: prest2 := by
        intro sub sub2 hsub hrec ht2
        subst ht2
        cases q with
        | nil => exact Or.inl rfl
        | cons a as =>
          by_cases hak : a = k
          · subst hak
            cases as with
            | nil =>
              refine Or.inr (Or.inl ⟨sub2, ?_⟩)
              simp [getNode, getVal_setVal]
            | cons b bs =>
              have hL : getNode (setVal t a (.map sub2)) (a :: b :: bs) =
                  getNode sub2 (b :: bs) := by
                rw [getNode_cons _ _ _ (by simp)]
                simp [getVal_setVal]
              rcases ih hrec (b :: bs) with h1 | ⟨s2, h1⟩ | h1 | h1
              · exact Or.inl (by rw [hL]; exact h1)
              · exact Or.inr (Or.inl ⟨s2, by rw [hL]; exact h1⟩)
              · rcases hsub with hv | ⟨hv, hs⟩
                · refine Or.inr (Or.inr (Or.inl ?_))
                  rw [hL, h1, getNode_cons t a (b :: bs) (by simp), hv]
                · subst hs
                  refine Or.inl ?_
                  rw [hL, h1]
                  exact getNode_nil _
              · exact Or.inr (Or.inr (Or.inr (by rw [h1])))
          · have hka : ¬ k = a := fun hh => hak hh.symm
            refine Or.inr (Or.inr (Or.inl ?_))
            cases as with
            | nil => simp [getNode, getVal_setVal, hka]
            | cons b bs =>
              rw [getNode_cons _ _ _ (by simp), getNode_cons _ _ _ (by simp), getVal_setVal]
              simp [hka]
      cases hv : getVal t k with
      | none =>
        simp only [hv] at h
        cases hrec : setNestedField ([] : Values) v (p1 :: prest2) with
        | error e => simp [hrec] at h
        | ok sub2 =>
          simp only [hrec] at h
          cases h
          exact main [] sub2 (Or.inr ⟨hv, rfl⟩) hrec rfl
      | some node =>
        cases node with
        | scalar s => simp [hv] at h
        | arr xs => simp [hv] at h
        | map sub =>
          simp only [hv] at h
          cases hrec : setNestedField sub v (p1 :: prest2) with
          | error e => simp [hrec] at h
          | ok sub2 =>
            simp only [hrec] at h
            cases h
            exact main sub sub2 (Or.inl hv) hrec rfl

theorem map_fst_cons_map (k : String) : ∀ (L : List (List String × GoVal)),
    ((L.map fun pv => (k :: pv.1, pv.2)).map Prod.fst) =
      (L.map Prod.fst).map (fun r => k :: r) := by
  intro L
  induction L with
  | nil => rfl
  | cons x xs ih => simp [ih]

theorem leafPathsEntry_obj_keys (k : String) (sub : List (String × GoJson)) :
    (leafPathsEntry k (.obj sub)).map Prod.fst =
      ((leafPaths sub).map Prod.fst).map (fun r => k :: r) := by
  simp only [leafPathsEntry]
  exact map_fst_cons_map k _

theorem leafPathsEntry_key_head {k : String} {v : GoJson} {rel : List String}
    (h : rel ∈ (leafPathsEntry k v).map Prod.fst) : ∃ r, rel = k :: r := by
  simp only [List.mem_map] at h
  obtain ⟨pv, hpv, rfl⟩ := h
  exact leafPathsEntry_heads k v pv hpv

theorem leafPaths_key_head {cfg : List (String × GoJson)} {rel : List String}
    (h : rel ∈ (leafPaths cfg).map Prod.fst) :
    ∃ k r, rel = k :: r ∧ k ∈ cfg.map Prod.fst := by
  simp only [List.mem_map] at h
  obtain ⟨pv, hpv, rfl⟩ := h
  exact leafPaths_heads cfg pv hpv

theorem parseConfig_char :
    ∀ (cfg : List (String × GoJson)) (t : Values) (p : List String),
      wfObj cfg → p ≠ [] →
      (∀ rel ∈ (leafPaths cfg).map Prod.fst, ∀ q, isPre q (p ++ rel) → q ≠ p ++ rel →
        q ≠ [] → getNode t q = none ∨ ∃ sub, getNode t q = some (.map sub)) →
      (∀ rel ∈ (leafPaths cfg).map Prod.fst, ∀ q, isPre (p ++ rel) q →
        lookupLeaf t q = none) →
      (∀ q, lookupLeaf (parseConfig cfg t p).2.1 q = overlayLeaf (leafPaths cfg) p t q) ∧
      (∀ q, getNode (parseConfig cfg t p).2.1 q = none ∨
        (∃ sub, getNode (parseConfig cfg t p).2.1 q = some (.map sub)) ∨
        getNode (parseConfig cfg t p).2.1 q = getNode t q ∨
        (∃ rel, q = p ++ rel ∧ rel ∈ (leafPaths cfg).map Prod.fst)) := by
  refine parseConfig.induct
    (fun k v t p => wfJson v → p ≠ [] →
      (∀ rel ∈ (leafPathsEntry k v).map Prod.fst, ∀ q, isPre q (p ++ rel) → q ≠ p ++ rel →
        q ≠ [] → getNode t q = none ∨ ∃ sub, getNode t q = some (.map sub)) →
      (∀ rel ∈ (leafPathsEntry k v).map Prod.fst, ∀ q, isPre (p ++ rel) q →
        lookupLeaf t q = none) →
      (∀ q, lookupLeaf (parseEntry k v t p).2.1 q = overlayLeaf (leafPathsEntry k v) p t q) ∧
      (∀ q, getNode (parseEntry k v t p).2.1 q = none ∨
        (∃ sub, getNode (parseEntry k v t p).2.1 q = some (.map sub)) ∨
        getNode (parseEntry k v t p).2.1 q = getNode t q ∨
        (∃ rel, q = p ++ rel ∧ rel ∈ (leafPathsEntry k v).map Prod.fst)))
    (fun cfg t p => wfObj cfg → p ≠ [] →
      (∀ rel ∈ (leafPaths cfg).map Prod.fst, ∀ q, isPre q (p ++ rel) → q ≠ p ++ rel →
        q ≠ [] → getNode t q = none ∨ ∃ sub, getNode t q = some (.map sub)) →
      (∀ rel ∈ (leafPaths cfg).map Prod.fst, ∀ q, isPre (p ++ rel) q →
        lookupLeaf t q = none) →
      (∀ q, lookupLeaf (parseConfig cfg t p).2.1 q = overlayLeaf (leafPaths cfg) p t q) ∧
      (∀ q, getNode (parseConfig cfg t p).2.1 q = none ∨
        (∃ sub, getNode (parseConfig cfg t p).2.1 q = some (.map sub)) ∨
        getNode (parseConfig cfg t p).2.1 q = getNode t q ∨
        (∃ rel, q = p ++ rel ∧ rel ∈ (leafPaths cfg).map Prod.fst)))
    ?_ ?_ ?_ ?_ ?_ ?_ ?_ ?_
  · -- scalar entry named kind/apiVersion: nothing extracted
    intro k t p s hdisc hwf hp hdisj hunder
    have hL : leafPathsEntry k (.scalar s) = [] := by
      simp [leafPathsEntry, if_pos hdisc]
    refine ⟨?_, ?_⟩
    · intro q
      simp only [parseEntry, if_pos hdisc]
      rw [hL]
      cases hsp : stripPre p q with
      | none => rw [overlayLeaf_none hsp]
      | some rel =>
        rw [overlayLeaf_some hsp]
        simp [findP]
    · intro q
      simp only [parseEntry, if_pos hdisc]
      exact Or.inr (Or.inr (Or.inl trivial))
  · -- scalar entry, insertion succeeded
    intro k t p s hdisc values2 templated hadd hwf hp hdisj hunder
    obtain ⟨-, hset⟩ := add_spec hadd
    have hkmem : [k] ∈ (leafPathsEntry k (.scalar s)).map Prod.fst := by
      simp [leafPathsEntry, if_neg hdisc]
    have hL : leafPathsEntry k (.scalar s) = [([k], s)] := by
      simp [leafPathsEntry, if_neg hdisc]
    refine ⟨?_, ?_⟩
    · intro q
      simp only [parseEntry, if_neg hdisc, hadd]
      rw [setNested_lookupLeaf hset q, hL]
      by_cases h1 : q = p ++ [k]
      · subst h1
        rw [if_pos rfl, overlayLeaf_some (stripPre_append p [k])]
        simp [findP]
      · rw [if_neg h1]
        by_cases h2 : isPre (p ++ [k]) q ∨ isPre q (p ++ [k])
        · rw [if_pos h2]
          rcases h2 with h2 | h2
          · have hpq : isPre p q := isPre_trans (isPre_exists.mpr ⟨[k], rfl⟩) h2
            obtain ⟨rel, rfl⟩ := isPre_exists.mp hpq
            rw [overlayLeaf_some (stripPre_append p rel)]
            have hrelk : ¬ ([k] : List String) = rel := fun hh => h1 (by rw [← hh])
            have hun : lookupLeaf t (p ++ rel) = none := hunder [k] hkmem (p ++ rel) h2
            simp [findP, hrelk, hun]
          · by_cases hqnil : q = []
            · subst hqnil
              have hsp : stripPre p [] = none := by
                cases p with
                | nil => exact absurd rfl hp
                | cons x xs => rfl
              rw [overlayLeaf_none hsp, lookupLeaf_nil_path]
            · have hlk : lookupLeaf t q = none := by
                rcases hdisj [k] hkmem q h2 h1 hqnil with hno | ⟨sub, hsub⟩
                · simp [lookupLeaf, hno]
                · simp [lookupLeaf, hsub]
              cases hsp : stripPre p q with
              | none => rw [overlayLeaf_none hsp, hlk]
              | some rel =>
                obtain rfl := stripPre_eq_some hsp
                rw [overlayLeaf_some (stripPre_append p rel)]
                have hrelk : ¬ ([k] : List String) = rel := fun hh => h1 (by rw [← hh])
                simp [findP, hrelk, hlk]
        · rw [if_neg h2]
          cases hsp : stripPre p q with
          | none => rw [overlayLeaf_none hsp]
          | some rel =>
            obtain rfl := stripPre_eq_some hsp
            rw [overlayLeaf_some (stripPre_append p rel)]
            have hrelk : ¬ ([k] : List String) = rel := fun hh => h1 (by rw [← hh])
            simp [findP, hrelk]
    · intro q
      simp only [parseEntry, if_neg hdisc, hadd]
      rcases setNested_getNode hset q with h1 | h1 | h1 | h1
      · exact Or.inl h1
      · exact Or.inr (Or.inl h1)
      · exact Or.inr (Or.inr (Or.inl h1))
      · exact Or.inr (Or.inr (Or.inr ⟨[k], h1, hkmem⟩))
  · -- scalar entry, insertion failed: ruled out by the cleanliness hypothesis
    intro k t p s hdisc e herr hwf hp hdisj hunder
    have hkmem : [k] ∈ (leafPathsEntry k (.scalar s)).map Prod.fst := by
      simp [leafPathsEntry, if_neg hdisc]
    obtain ⟨t2, hok⟩ := setNested_ok s (p ++ [k]) t (by simp)
      (fun q hq hne hnil => hdisj [k] hkmem q hq hne hnil)
    exact absurd herr (by simp [Values.add, hok])
  · -- sequence entry: nothing extracted
    intro k t p xs hwf hp hdisj hunder
    refine ⟨?_, ?_⟩
    · intro q
      simp only [parseEntry]
      show lookupLeaf t q = overlayLeaf (leafPathsEntry k (.arr xs)) p t q
      cases hsp : stripPre p q with
      | none => rw [overlayLeaf_none hsp]
      | some rel =>
        rw [overlayLeaf_some hsp]
        simp [leafPathsEntry, findP]
    · intro q
      simp only [parseEntry]
      exact Or.inr (Or.inr (Or.inl trivial))
  · -- nested mapping entry: recurse below the key
    intro k t p sub ih hwf hp hdisj hunder
    have hsubwf : wfObj sub := hwf
    have hpk : p ++ [k] ≠ [] := by simp
    have hdisj2 : ∀ rel ∈ (leafPaths sub).map Prod.fst, ∀ q,
        isPre q ((p ++ [k]) ++ rel) → q ≠ (p ++ [k]) ++ rel → q ≠ [] →
        getNode t q = none ∨ ∃ s2, getNode t q = some (.map s2) := by
      intro rel hrel q hq hne hnil
      have hmem : (k :: rel) ∈ (leafPathsEntry k (.obj sub)).map Prod.fst := by
        rw [leafPathsEntry_obj_keys]
        exact List.mem_map.mpr ⟨rel, hrel, rfl⟩
      have hassoc : p ++ k :: rel = (p ++ [k]) ++ rel := by simp
      rw [← hassoc] at hq hne
      exact hdisj (k :: rel) hmem q hq hne hnil
    have hunder2 : ∀ rel ∈ (leafPaths sub).map Prod.fst, ∀ q,
        isPre ((p ++ [k]) ++ rel) q → lookupLeaf t q = none := by
      intro rel hrel q hq
      have hmem : (k :: rel) ∈ (leafPathsEntry k (.obj sub)).map Prod.fst := by
        rw [leafPathsEntry_obj_keys]
        exact List.mem_map.mpr ⟨rel, hrel, rfl⟩
      have hassoc : p ++ k :: rel = (p ++ [k]) ++ rel := by simp
      rw [← hassoc] at hq
      exact hunder (k :: rel) hmem q hq
    obtain ⟨ha, hb⟩ := ih hsubwf hpk hdisj2 hunder2
    have hred : (parseEntry k (.obj sub) t p).2.1 = (parseConfig sub t (p ++ [k])).2.1 := rfl
    refine ⟨?_, ?_⟩
    · intro q
      rw [hred, ha q]
      have hsnoc := stripPre_snoc p k q
      cases hsp : stripPre p q with
      | none =>
        have h2 : stripPre (p ++ [k]) q = none := by simp [hsnoc, hsp]
        rw [overlayLeaf_none h2, overlayLeaf_none hsp]
      | some rel =>
        cases rel with
        | nil =>
          have h2 : stripPre (p ++ [k]) q = none := by simp [hsnoc, hsp]
          rw [overlayLeaf_none h2, overlayLeaf_some hsp]
          have hf : findP (leafPathsEntry k (.obj sub)) [] = none := by
            apply findP_none_of
            intro pv hpv
            obtain ⟨r, hr⟩ := leafPathsEntry_heads k (.obj sub) pv hpv
            simp [hr]
          simp [hf]
        | cons k2 r =>
          by_cases hk2 : k2 = k
          · subst hk2
            have h2 : stripPre (p ++ [k2]) q = some r := by simp [hsnoc, hsp]
            rw [overlayLeaf_some h2, overlayLeaf_some hsp]
            have hm : findP (leafPathsEntry k2 (.obj sub)) (k2 :: r) =
                findP (leafPaths sub) r := by
              have h3 := findP_map_cons k2 (leafPaths sub) (k2 :: r)
              simp only [leafPathsEntry]
              simpa using h3
            rw [hm]
          · have h2 : stripPre (p ++ [k]) q = none := by simp [hsnoc, hsp, hk2]
            rw [overlayLeaf_none h2, overlayLeaf_some hsp]
            have hm : findP (leafPathsEntry k (.obj sub)) (k2 :: r) = none := by
              have h3 := findP_map_cons k (leafPaths sub) (k2 :: r)
              simp only [leafPathsEntry]
              simpa [hk2] using h3
            simp [hm]
    · intro q
      rw [hred]
      rcases hb q with h1 | h1 | h1 | ⟨rel, hq, hrel⟩
      · exact Or.inl h1
      · exact Or.inr (Or.inl h1)
      · exact Or.inr (Or.inr (Or.inl h1))
      · refine Or.inr (Or.inr (Or.inr ⟨k :: rel, ?_, ?_⟩))
        · rw [hq]
          simp
        · rw [leafPathsEntry_obj_keys]
          exact List.mem_map.mpr ⟨rel, hrel, rfl⟩
  · -- nil-valued entry: nothing extracted
    intro k t p hwf hp hdisj hunder
    refine ⟨?_, ?_⟩
    · intro q
      simp only [parseEntry]
      show lookupLeaf t q = overlayLeaf (leafPathsEntry k .null) p t q
      cases hsp : stripPre p q with
      | none => rw [overlayLeaf_none hsp]
      | some rel =>
        rw [overlayLeaf_some hsp]
        simp [leafPathsEntry, findP]
    · intro q
      simp only [parseEntry]
      exact Or.inr (Or.inr (Or.inl trivial))
  · -- empty payload
    intro t p hwf hp hdisj hunder
    refine ⟨?_, ?_⟩
    · intro q
      show lookupLeaf t q = overlayLeaf (leafPaths []) p t q
      cases hsp : stripPre p q with
      | none => rw [overlayLeaf_none hsp]
      | some rel =>
        rw [overlayLeaf_some hsp]
        simp [leafPaths, findP]
    · intro q
      exact Or.inr (Or.inr (Or.inl rfl))
  · -- payload entry followed by the rest of the mapping level
    intro t p k v rest r1 ih1 ih2 hwf hp hdisj hunder
    have hr1 : r1 = parseEntry k v t p := rfl
    rw [hr1] at ih2
    obtain ⟨hknotin, hwv, hwrest⟩ := hwf
    have hkeys : (leafPaths ((k, v) :: rest)).map Prod.fst =
        (leafPathsEntry k v).map Prod.fst ++ (leafPaths rest).map Prod.fst := by
      simp [leafPaths]
    have hmemE : ∀ rel ∈ (leafPathsEntry k v).map Prod.fst,
        rel ∈ (leafPaths ((k, v) :: rest)).map Prod.fst := by
      intro rel hrel
      rw [hkeys]
      exact List.mem_append.mpr (Or.inl hrel)
    have hmemR : ∀ rel ∈ (leafPaths rest).map Prod.fst,
        rel ∈ (leafPaths ((k, v) :: rest)).map Prod.fst := by
      intro rel hrel
      rw [hkeys]
      exact List.mem_append.mpr (Or.inr hrel)
    have hheadR : ∀ rel ∈ (leafPaths rest).map Prod.fst,
        ∃ k2 r, rel = k2 :: r ∧ k2 ≠ k := by
      intro rel h
      obtain ⟨k2, r, hr, hk2⟩ := leafPaths_key_head h
      refine ⟨k2, r, hr, ?_⟩
      obtain ⟨kv2, hkv2, hk2eq⟩ := List.mem_map.mp hk2
      rw [← hk2eq]
      exact hknotin kv2 hkv2
    obtain ⟨haE, hbE⟩ := ih1 hwv hp
      (fun rel hrel => hdisj rel (hmemE rel hrel))
      (fun rel hrel => hunder rel (hmemE rel hrel))
    have hdisjR : ∀ rel ∈ (leafPaths rest).map Prod.fst, ∀ q, isPre q (p ++ rel) →
        q ≠ p ++ rel → q ≠ [] →
        getNode (parseEntry k v t p).2.1 q = none ∨
          ∃ sub, getNode (parseEntry k v t p).2.1 q = some (.map sub) := by
      intro rel hrel q hq hne hnil
      rcases hbE q with h1 | h1 | h1 | ⟨rel0, hq0, hrel0⟩
      · exact Or.inl h1
      · exact Or.inr h1
      · rw [h1]
        exact hdisj rel (hmemR rel hrel) q hq hne hnil
      · exfalso
        obtain ⟨r0, hr0⟩ := leafPathsEntry_key_head hrel0
        obtain ⟨k2, r2, hr2, hk2⟩ := hheadR rel hrel
        rw [hq0] at hq
        have hpre0 : isPre rel0 rel := isPre_cancel p hq
        rw [hr0, hr2] at hpre0
        exact hk2 hpre0.1.symm
    have hunderR : ∀ rel ∈ (leafPaths rest).map Prod.fst, ∀ q, isPre (p ++ rel) q →
        lookupLeaf (parseEntry k v t p).2.1 q = none := by
      intro rel hrel q hq
      rw [haE q]
      have hpq : isPre p q := isPre_trans (isPre_exists.mpr ⟨rel, rfl⟩) hq
      obtain ⟨rel2, rfl⟩ := isPre_exists.mp hpq
      have hpre2 : isPre rel rel2 := isPre_cancel p hq
      obtain ⟨k2, r2, hr2, hk2⟩ := hheadR rel hrel
      have hf : findP (leafPathsEntry k v) rel2 = none := by
        apply findP_none_of
        intro pv hpv
        obtain ⟨r0, hr0⟩ := leafPathsEntry_heads k v pv hpv
        rw [hr0]
        subst hr2
        cases rel2 with
        | nil => cases hpre2
        | cons a as =>
          have hk2a : k2 = a := hpre2.1
          intro hh
          injection hh with hh1 _
          exact hk2 (by rw [hk2a, ← hh1])
      rw [overlayLeaf_some (stripPre_append p rel2)]
      simp only [hf]
      exact hunder rel (hmemR rel hrel) _ hq
    obtain ⟨haR, hbR⟩ := ih2 hwrest hp hdisjR hunderR
    have hred : (parseConfig ((k, v) :: rest) t p).2.1 =
        (parseConfig rest (parseEntry k v t p).2.1 p).2.1 := rfl
    have hsplit : ∀ rel, findP (leafPaths ((k, v) :: rest)) rel =
        match findP (leafPathsEntry k v) rel with
        | some w => some w
        | none => findP (leafPaths rest) rel := by
      intro rel
      have hlp : leafPaths ((k, v) :: rest) = leafPathsEntry k v ++ leafPaths rest := rfl
      rw [hlp, findP_append]
    refine ⟨?_, ?_⟩
    · intro q
      rw [hred, haR q]
      cases hsp : stripPre p q with
      | none =>
        rw [overlayLeaf_none hsp, overlayLeaf_none hsp, haE q, overlayLeaf_none hsp]
      | some rel =>
        rw [overlayLeaf_some hsp, overlayLeaf_some hsp, hsplit rel]
        cases hfE : findP (leafPathsEntry k v) rel with
        | some w =>
          have hrelmem : rel ∈ (leafPathsEntry k v).map Prod.fst := findP_mem hfE
          obtain ⟨r0, hr0⟩ := leafPathsEntry_key_head hrelmem
          have hfR : findP (leafPaths rest) rel = none := by
            apply findP_none_of
            intro pv hpv
            obtain ⟨k2, r2, hr2, hk2mem⟩ := leafPaths_heads rest pv hpv
            have hk2 : k2 ≠ k := by
              obtain ⟨kv2, hkv2, hk2eq⟩ := List.mem_map.mp hk2mem
              rw [← hk2eq]
              exact hknotin kv2 hkv2
            rw [hr2, hr0]
            intro hh
            injection hh with hh1 _
            exact hk2 hh1
          simp only [hfR]
          rw [haE q, overlayLeaf_some hsp]
          simp only [hfE]
        | none =>
          cases hfR : findP (leafPaths rest) rel with
          | some w => rfl
          | none =>
            have hEq : lookupLeaf (parseEntry k v t p).2.1 q = lookupLeaf t q := by
              rw [haE q, overlayLeaf_some hsp]
              simp only [hfE]
            exact hEq
    · intro q
      rw [hred]
      rcases hbR q with h1 | h1 | h1 | ⟨rel, hq, hrel⟩
      · exact Or.inl h1
      · exact Or.inr (Or.inl h1)
      · rw [h1]
        rcases hbE q with h2 | h2 | h2 | ⟨rel0, hq0, hrel0⟩
        · exact Or.inl h2
        · exact Or.inr (Or.inl h2)
        · exact Or.inr (Or.inr (Or.inl h2))
        · exact Or.inr (Or.inr (Or.inr ⟨rel0, hq0, hmemE rel0 hrel0⟩))
      · exact Or.inr (Or.inr (Or.inr ⟨rel, hq, hmemR rel hrel⟩))

/-- C3: for every well-formed structured payload (distinct keys at every
mapping level, as in a Go map) handed to the structural value extractor, any
two runs that iterate the payload's mapping keys in different orders — at any
level — produce values-tree fragments holding the same value at every path:
the same set of Path-to-value pairs. -/
theorem c3_order_independence (cfg1 cfg2 : List (String × GoJson)) (p : List String)
    (hwf : wfObj cfg1) (heq : ObjEquiv cfg1 cfg2) (hp : p ≠ []) :
    ∀ q, lookupLeaf (parseConfig cfg1 [] p).2.1 q =
      lookupLeaf (parseConfig cfg2 [] p).2.1 q := by
  intro q
  have hwf2 : wfObj cfg2 := wfObj_equiv hwf heq
  have hchar1 := (parseConfig_char cfg1 [] p hwf hp
    (fun rel _ q2 _ _ _ => Or.inl (getNode_nil q2))
    (fun rel _ q2 _ => lookupLeaf_nil q2)).1
  have hchar2 := (parseConfig_char cfg2 [] p hwf2 hp
    (fun rel _ q2 _ _ _ => Or.inl (getNode_nil q2))
    (fun rel _ q2 _ => lookupLeaf_nil q2)).1
  rw [hchar1 q, hchar2 q]
  cases hsp : stripPre p q with
  | none => rw [overlayLeaf_none hsp, overlayLeaf_none hsp]
  | some rel =>
    rw [overlayLeaf_some hsp, overlayLeaf_some hsp]
    have hperm : (leafPaths cfg1).Perm (leafPaths cfg2) := (objEquiv_bundle heq).2.2
    have hnd : ((leafPaths cfg1).map Prod.fst).Nodup := leafPaths_nodup cfg1 hwf
    rw [findP_perm hperm hnd rel]

/-- C3 witness: a concrete two-level payload iterated in two different orders
yields the same value at a nested path, here the leaf under `b.c`. -/
theorem c3_order_independence_witness :
    lookupLeaf (parseConfig c3cfgA [] ["cfg"]).2.1 ["cfg", "b", "c"] =
        lookupLeaf (parseConfig c3cfgB [] ["cfg"]).2.1 ["cfg", "b", "c"] ∧
      lookupLeaf (parseConfig c3cfgA [] ["cfg"]).2.1 ["cfg", "b", "c"] =
        some (.str "2") := by
  constructor
  · refine c3_order_independence c3cfgA c3cfgB ["cfg"] ?_ ?_
      (List.cons_ne_nil _ _) ["cfg", "b", "c"]
    · simp [c3cfgA, wfObj, wfJson]
    · exact @ObjEquiv.cons "a" (.scalar (.str "1")) (.scalar (.str "1"))
        [("b", .obj [("c", .scalar (.str "2")), ("d", .scalar (.str "3"))])]
        [("b", .obj [("d", .scalar (.str "3")), ("c", .scalar (.str "2"))])] []
        (.scalar _)
        (@ObjEquiv.cons "b" (.obj [("c", .scalar (.str "2")), ("d", .scalar (.str "3"))])
          (.obj [("d", .scalar (.str "3")), ("c", .scalar (.str "2"))]) [] [] []
          (.obj (@ObjEquiv.cons "c" (.scalar (.str "2")) (.scalar (.str "2"))
            [("d", .scalar (.str "3"))] [("d", .scalar (.str "3"))] []
            (.scalar _)
            (@ObjEquiv.cons "d" (.scalar (.str "3")) (.scalar (.str "3")) [] [] []
              (.scalar _) ObjEquiv.nil)))
          ObjEquiv.nil)
  · rfl

/-- C2 counterexample: a plain ConfigMap data entry literally named `kind`
is extracted: its value appears as a leaf keyed `kind` in the produced
fragment and the entry is replaced by a placeholder — so the claim's
extension to plain data entries (and the property route) is false. -/
theorem c2_counterexample :
    parseMapData trivCodec [("kind", "foo")] "cfg" =
      ([("kind", "\x7b\x7b .Values.cfg.kind \x7d\x7d")],
       [("cfg", .map [("kind", .scalar (.str "foo"))])], []) ∧
    lookupLeaf [("cfg", .map [("kind", .scalar (.str "foo"))])] ["cfg", "kind"] =
      some (.str "foo") :=
  ⟨rfl, rfl⟩

/-- C2 (amended): only the structural value extractor filters the
discriminator keys: every scalar leaf it adds beyond the incoming tree sits
at a path whose last segment is neither `kind` nor `apiVersion`, and
`kind`/`apiVersion` scalar entries of the payload are passed through
untouched (never replaced by placeholders). The property extractor and plain
ConfigMap data entries apply no such filter. -/
theorem c2_discriminator :
    (∀ (cfg : List (String × GoJson)) (t : Values) (p q : List String) (w : GoVal),
      lookupLeaf (parseConfig cfg t p).2.1 q = some w →
      lookupLeaf t q = some w ∨
        (q.getLast? ≠ some "kind" ∧ q.getLast? ≠ some "apiVersion")) ∧
    (∀ (cfg : List (String × GoJson)) (t : Values) (p : List String) (i : Nat)
      (k : String) (s : GoVal),
      cfg.get? i = some (k, .scalar s) → (k = "kind" ∨ k = "apiVersion") →
      (parseConfig cfg t p).1.get? i = some (k, .scalar s)) :=
  ⟨fun cfg t p q w h => parseConfig_lastSeg cfg t p q w h,
   parseConfig_keeps_discriminator⟩

/-- C2 witness: on the payload `{kind: "v1", a: 1}` the extracted leaf
`cfg.a` is new and does not end in a discriminator key, and the `kind` entry
is preserved untouched at its position. -/
theorem c2_discriminator_witness :
    (lookupLeaf [] ["cfg", "a"] = some (.int 1) ∨
      ((["cfg", "a"] : List String).getLast? ≠ some "kind" ∧
       (["cfg", "a"] : List String).getLast? ≠ some "apiVersion")) ∧
    (parseConfig [("kind", .scalar (.str "v1")), ("a", .scalar (.int 1))] [] ["cfg"]).1.get? 0 =
      some ("kind", .scalar (.str "v1")) :=
  ⟨c2_discriminator.1 [("kind", .scalar (.str "v1")), ("a", .scalar (.int 1))] [] ["cfg"]
      ["cfg", "a"] (.int 1) (by rfl),
   c2_discriminator.2 [("kind", .scalar (.str "v1")), ("a", .scalar (.int 1))] [] ["cfg"]
      0 "kind" (.str "v1") rfl (Or.inl rfl)⟩

/-- C1 counterexample: the property text with the duplicate name `t` first
extracts the leaf `"1"` at path `[cfg, t]` (as its own line is processed) and
then overwrites it; the final fragment renders the placeholder of that path —
which stands for both rewritten lines — as `"2"`, so the first extracted leaf
is not reproduced byte-for-byte. -/
theorem c1_counterexample :
    parseProperties "t=1" ["cfg"] [] =
      (.ok "t=\x7b\x7b .Values.cfg.t \x7d\x7d\n",
       [("cfg", .map [("t", .scalar (.str "1"))])]) ∧
    parseProperties "t=1\nt=2" ["cfg"] [] =
      (.ok "t=\x7b\x7b .Values.cfg.t \x7d\x7d\nt=\x7b\x7b .Values.cfg.t \x7d\x7d\n",
       [("cfg", .map [("t", .scalar (.str "2"))])]) ∧
    lookupLeaf [("cfg", .map [("t", .scalar (.str "2"))])] ["cfg", "t"] = some (.str "2") ∧
    GoVal.str "2" ≠ GoVal.str "1" :=
  ⟨rfl, rfl, rfl, by decide⟩

/-- C1 (amended): rendering a placeholder against the fragment as of its own
insertion reproduces the inserted leaf byte-for-byte: every values-tree
insertion (the route taken by structured-YAML leaves, property values, plain
ConfigMap data entries and replica counts) returns exactly the placeholder of
its path and stores the inserted value at that path; for container images,
rendering the repository and tag placeholders joined by `:` reproduces the
original image reference. If a later extraction writes the same path again
(duplicate property names, colliding container names), the earlier leaf is
overwritten and no longer reproduced. -/
theorem c1_round_trip :
    (∀ (t : Values) (v : GoVal) (p : List String) (t2 : Values) (ph : String),
      Values.add t v p = .ok (t2, ph) →
      ph = refOf p ∧ lookupLeaf t2 p = some v) ∧
    (∀ (n : String) (m : AppMetadata) (c : Container) (t : Values) (idx : Nat),
      ContainerVals t → lastIdxOf ':' c.image = some idx →
      ∃ c2 t2, processPodContainer n m c t = .ok (c2, t2) ∧
        renderImage t2 n (toLowerCamel c.name) = some c.image) := by
  constructor
  · intro t v p t2 ph hadd
    obtain ⟨hph, hset⟩ := add_spec hadd
    refine ⟨hph, ?_⟩
    rw [setNested_lookupLeaf hset p]
    simp
  · intro n m c t idx ht hidx
    obtain ⟨c2, t2, hok, -, -, hrepo, htag⟩ := ppc_ok ht hidx n m
    refine ⟨c2, t2, hok, ?_⟩
    rw [renderImage, hrepo, htag]
    dsimp only
    obtain ⟨-, hsplit, -⟩ := lastIdxOfAux_spec hidx
    have hcat : String.mk (c.image.data.take idx) ++ ":" ++
        String.mk (c.image.data.drop (idx + 1)) =
        String.mk (c.image.data.take idx ++ ':' :: c.image.data.drop (idx + 1)) := by
      show String.mk ((c.image.data.take idx ++ [':']) ++ c.image.data.drop (idx + 1)) = _
      rw [List.append_assoc]
      rfl
    rw [hcat, hsplit]

/-- C1 witness: the insertion route at `[cfg, timeout]` with value `"30"`,
and the image route on the container with image `redis:6.2`. -/
theorem c1_round_trip_witness :
    ("\x7b\x7b .Values.cfg.timeout \x7d\x7d" = refOf ["cfg", "timeout"] ∧
      lookupLeaf [("cfg", .map [("timeout", .scalar (.str "30"))])] ["cfg", "timeout"] =
        some (.str "30")) ∧
    ∃ c2 t2, processPodContainer "app" idMeta redisTaggedContainer [] = .ok (c2, t2) ∧
      renderImage t2 "app" (toLowerCamel redisTaggedContainer.name) =
        some redisTaggedContainer.image :=
  ⟨c1_round_trip.1 [] (.str "30") ["cfg", "timeout"]
      [("cfg", .map [("timeout", .scalar (.str "30"))])]
      "\x7b\x7b .Values.cfg.timeout \x7d\x7d" (by rfl),
   c1_round_trip.2 "app" idMeta redisTaggedContainer [] 5 contVals_nil (by rfl)⟩

theorem parsePropLines_err : ∀ (lines path : List String) (values : Values),
    (∃ l ∈ lines, (strSplit '=' l).length ≠ 2) →
    ∃ e values2, parsePropLines lines path values = (.error e, values2) := by
  intro lines
  induction lines with
  | nil =>
    intro path values h
    simp at h
  | cons line rest ih =>
    intro path values h
    by_cases hl : (strSplit '=' line).length = 2
    · obtain ⟨l, hlm, hbad⟩ := h
      have hrest : ∃ l ∈ rest, (strSplit '=' l).length ≠ 2 := by
        rcases List.mem_cons.mp hlm with rfl | hm
        · exact absurd hl hbad
        · exact ⟨l, hm, hbad⟩
      simp only [parsePropLines]
      rw [if_pos hl]
      cases hadd : Values.add values (.str (((strSplit '=' line).drop 1).headD ""))
          (path ++ strSplit '.' ((strSplit '=' line).headD "")) with
      | error e => exact ⟨e, values, rfl⟩
      | ok pair =>
        obtain ⟨v2, tv⟩ := pair
        obtain ⟨e, v3, hrec⟩ := ih path v2 hrest
        refine ⟨e, v3, ?_⟩
        dsimp only
        rw [hrec]
    · refine ⟨"wrong property format in [" ++ strJoin " " path ++ "]: " ++ line, values, ?_⟩
      simp only [parsePropLines]
      rw [if_neg hl]

theorem parseProperties_err (text : String) (path : List String) (values : Values)
    (h : ∃ l ∈ strSplit '\n' (trimSuffixOnce text "\n"), (strSplit '=' l).length ≠ 2) :
    ∃ e values2, parseProperties text path values = (.error e, values2) :=
  parsePropLines_err _ path values h

theorem parseMapDataGo_cons_shape (codec : YamlCodec) (cfgName k0 v0 : String)
    (rest : List (String × String)) (values : Values) :
    ∃ x vs2 pre, parseMapDataGo codec ((k0, v0) :: rest) cfgName values =
      ((k0, x) :: (parseMapDataGo codec rest cfgName vs2).1,
       (parseMapDataGo codec rest cfgName vs2).2.1,
       pre ++ (parseMapDataGo codec rest cfgName vs2).2.2) := by
  simp only [parseMapDataGo]
  by_cases h1 : (strEndsWith k0 ".yaml" = true) ∨ (strEndsWith k0 ".yml" = true)
  · rw [if_pos (by simpa using h1)]
    rcases hpy : parseYaml codec v0 [cfgName, k0] values with ⟨pr, vs2, d⟩
    cases pr with
    | error e =>
      refine ⟨v0, vs2, d ++ [dataDiag [cfgName, k0] e], ?_⟩
      simp [List.append_assoc]
    | ok tpl =>
      exact ⟨tpl, vs2, d, rfl⟩
  · rw [if_neg (by simpa using h1)]
    by_cases h2 : strEndsWith k0 ".properties" = true
    · rw [if_pos (by simpa using h2)]
      rcases hpp : parseProperties v0 [cfgName, k0] values with ⟨pr, vs2⟩
      cases pr with
      | error e =>
        refine ⟨v0, vs2, [dataDiag [cfgName, k0] e], ?_⟩
        simp
      | ok tpl =>
        refine ⟨tpl, vs2, [], ?_⟩
        simp
    · rw [if_neg (by simpa using h2)]
      cases hadd : Values.add values (.str v0) [cfgName, k0] with
      | error e =>
        refine ⟨v0, values, [dataDiag [cfgName, k0] e], ?_⟩
        simp
      | ok pair =>
        obtain ⟨vs2, tv⟩ := pair
        refine ⟨tv, vs2, [], ?_⟩
        simp

theorem parseMapDataGo_entry (codec : YamlCodec) (cfgName : String) :
    ∀ (data : List (String × String)) (values : Values) (i : Nat) (key text : String),
    data.get? i = some (key, text) →
    strEndsWith key ".yaml" = false → strEndsWith key ".yml" = false →
    strEndsWith key ".properties" = true →
    (∀ vs, ∃ e vs2, parseProperties text [cfgName, key] vs = (.error e, vs2)) →
    (parseMapDataGo codec data cfgName values).1.get? i = some (key, text) ∧
    ∃ e, dataDiag [cfgName, key] e ∈ (parseMapDataGo codec data cfgName values).2.2 := by
  intro data
  induction data with
  | nil =>
    intro values i key text hget
    simp at hget
  | cons kv rest ih =>
    intro values i key text hget hky hkm hkp hfail
    obtain ⟨k0, v0⟩ := kv
    cases i with
    | zero =>
      simp only [List.get?] at hget
      injection hget with hget
      injection hget with hk0 hv0
      subst hk0
      subst hv0
      obtain ⟨e, vs2, hpp⟩ := hfail values
      simp only [parseMapDataGo]
      rw [if_neg (by simp [hky, hkm]), if_pos (by simp [hkp]), hpp]
      exact ⟨rfl, e, by simp⟩
    | succ j =>
      simp only [List.get?] at hget
      obtain ⟨x, vs2, pre, hshape⟩ := parseMapDataGo_cons_shape codec cfgName k0 v0 rest values
      rw [hshape]
      obtain ⟨hg, e, hm⟩ := ih vs2 j key text hget hky hkm hkp hfail
      exact ⟨hg, e, by simp [hm]⟩

theorem processConfigMap_ok (codec : YamlCodec) (obj : ConfigMapObj)
    (hg : obj.group = "" ∧ obj.version = "v1" ∧ obj.kind = "ConfigMap") :
    ∃ res, processConfigMap codec obj = .ok res ∧
      res.values = (match obj.data with
        | none => []
        | some data => (parseMapData codec data obj.name).2.1) ∧
      res.diags = (match obj.data with
        | none => []
        | some data => (parseMapData codec data obj.name).2.2) := by
  simp only [processConfigMap]
  rw [if_neg (by simp [hg.1, hg.2.1, hg.2.2])]
  cases hd : obj.data with
  | none => exact ⟨_, rfl, rfl, rfl⟩
  | some data => exact ⟨_, rfl, rfl, rfl⟩

/-- C8: for every `.properties` ConfigMap data entry containing a line that
does not split into exactly two parts at `=`, extraction of that entry fails,
the entry's text is kept untemplated in the produced data section, a
diagnostic is recorded, and the ConfigMap resource is still accepted — the
Process call returns a template and never aborts on such an entry. -/
theorem c8_bad_property_line (codec : YamlCodec) (obj : ConfigMapObj)
    (hg : obj.group = "" ∧ obj.version = "v1" ∧ obj.kind = "ConfigMap")
    (data : List (String × String)) (hdata : obj.data = some data)
    (i : Nat) (key text : String) (hget : data.get? i = some (key, text))
    (hky : strEndsWith key ".yaml" = false) (hkm : strEndsWith key ".yml" = false)
    (hkp : strEndsWith key ".properties" = true)
    (hbad : ∃ l ∈ strSplit '\n' (trimSuffixOnce text "\n"), (strSplit '=' l).length ≠ 2) :
    (∀ vs, ∃ e vs2, parseProperties text [obj.name, key] vs = (.error e, vs2)) ∧
    (parseMapData codec data obj.name).1.get? i = some (key, text) ∧
    (∃ e, dataDiag [obj.name, key] e ∈ (parseMapData codec data obj.name).2.2) ∧
    ∃ res, processConfigMap codec obj = .ok res ∧
      res.values = (parseMapData codec data obj.name).2.1 ∧
      res.diags = (parseMapData codec data obj.name).2.2 := by
  have hfail : ∀ vs, ∃ e vs2, parseProperties text [obj.name, key] vs = (.error e, vs2) :=
    fun vs => parseProperties_err text [obj.name, key] vs hbad
  obtain ⟨h1, h2⟩ := parseMapDataGo_entry codec obj.name data [] i key text hget hky hkm hkp hfail
  obtain ⟨res, hok, hv, hdg⟩ := processConfigMap_ok codec obj hg
  simp only [hdata] at hv hdg
  exact ⟨hfail, h1, h2, res, hok, hv, hdg⟩

/-- C8 witness: the fixture ConfigMap whose `.properties` entry has the
malformed second line `badline` is accepted with the entry untemplated and a
diagnostic recorded. -/
theorem c8_bad_property_line_witness :
    (∀ vs, ∃ e vs2,
      parseProperties "timeout=30\nbadline" ["cfg", "app.properties"] vs = (.error e, vs2)) ∧
    (parseMapData trivCodec [("app.properties", "timeout=30\nbadline")] "cfg").1.get? 0 =
      some ("app.properties", "timeout=30\nbadline") ∧
    (∃ e, dataDiag ["cfg", "app.properties"] e ∈
      (parseMapData trivCodec [("app.properties", "timeout=30\nbadline")] "cfg").2.2) ∧
    ∃ res, processConfigMap trivCodec badPropsConfigMap = .ok res ∧
      res.values =
        (parseMapData trivCodec [("app.properties", "timeout=30\nbadline")] "cfg").2.1 ∧
      res.diags =
        (parseMapData trivCodec [("app.properties", "timeout=30\nbadline")] "cfg").2.2 :=
  c8_bad_property_line trivCodec badPropsConfigMap ⟨rfl, rfl, rfl⟩
    [("app.properties", "timeout=30\nbadline")] rfl 0 "app.properties" "timeout=30\nbadline"
    rfl rfl rfl rfl ⟨"badline", by decide⟩

/-- C10: when a `.properties` ConfigMap data entry fails to parse, the values
added for the preceding well-formed lines are not rolled back: the entry's
text is passed through untemplated, a diagnostic is recorded, and the values
tree returned for the resource is exactly the partially mutated tree the
failed extraction left behind. -/
theorem c10_no_rollback (codec : YamlCodec) (cfgName key text : String)
    (hky : strEndsWith key ".yaml" = false) (hkm : strEndsWith key ".yml" = false)
    (hkp : strEndsWith key ".properties" = true)
    (e : String) (vals2 : Values)
    (hfail : parseProperties text [cfgName, key] [] = (.error e, vals2)) :
    parseMapData codec [(key, text)] cfgName =
      ([(key, text)], vals2, [dataDiag [cfgName, key] e]) := by
  simp only [parseMapData, parseMapDataGo]
  rw [if_neg (by simp [hky, hkm]), if_pos (by simp [hkp]), hfail]

/-- C10 witness: for the entry text `"timeout=30\nbadline"` the second line
fails, yet the fragment keeps `cfg.app.properties.timeout = "30"` from the
first line while the entry's text stays untemplated, so that Path's
placeholder appears nowhere in the produced data section. -/
theorem c10_no_rollback_witness :
    parseMapData trivCodec [("app.properties", "timeout=30\nbadline")] "cfg" =
      ([("app.properties", "timeout=30\nbadline")],
       [("cfg", .map [("app.properties", .map [("timeout", .scalar (.str "30"))])])],
       [dataDiag ["cfg", "app.properties"]
         "wrong property format in [cfg app.properties]: badline"]) ∧
    lookupLeaf [("cfg", .map [("app.properties", .map [("timeout", .scalar (.str "30"))])])]
      ["cfg", "app.properties", "timeout"] = some (.str "30") :=
  ⟨c10_no_rollback trivCodec "cfg" "app.properties" "timeout=30\nbadline" rfl rfl rfl
    "wrong property format in [cfg app.properties]: badline"
    [("cfg", .map [("app.properties", .map [("timeout", .scalar (.str "30"))])])] rfl,
   rfl⟩

/-- C9: for the property text `"timeout=30\nretries=5\n"` extracted under
path `[cfg]`, the line-oriented property extractor returns exactly the
rewritten text `"timeout={{ .Values.cfg.timeout }}\nretries={{ .Values.cfg.retries }}\n"`
(lines in original order, each formatted `name=<placeholder>`, single
trailing newline) and the fragment `{cfg: {timeout: "30", retries: "5"}}`. -/
theorem c9_property_scenario :
    parseProperties "timeout=30\nretries=5\n" ["cfg"] [] =
      (.ok ("timeout=\x7b\x7b .Values.cfg.timeout \x7d\x7d\nretries=\x7b\x7b .Values.cfg.retries \x7d\x7d\n"),
       [("cfg", .map [("timeout", .scalar (.str "30")), ("retries", .scalar (.str "5"))])]) := by
  rfl

end Helmify
